import Mathlib

/-!
Verification of the markup-aware text transformation engine of `se/typography.py`:
the hyphenation scanner (`hyphenate`), the quoting-style classifier
(`guess_quoting_style`) and the British→American quote transducer
(`convert_british_to_american`).

Strings are embedded as `List Char`; Python string slices (which accept
negative indices) are embedded with an `Int` index; the per-language syllable
splitter and Python's Unicode `str.isalnum` are external collaborators and are
passed as function parameters.
-/

/-! ## Basic list utilities -/

/-- Python slice `s[:i]` on a string: a negative stop counts from the end. -/
def pyTake (s : List Char) (i : Int) : List Char :=
  if i < 0 then s.take (s.length - (-i).toNat) else s.take i.toNat

/-- Python slice `s[i:]` on a string: a negative start counts from the end. -/
def pyDrop (s : List Char) (i : Int) : List Char :=
  if i < 0 then s.drop (s.length - (-i).toNat) else s.drop i.toNat

/-- The soft hyphen character U+00AD inserted between syllables. -/
def shy : Char := '\u00AD'

/-- Remove every soft hyphen from a string. -/
def stripShy (s : List Char) : List Char := s.filter (fun c => !(c == shy))

/-- Python's `"­".join(syllables)`. -/
def joinShy : List (List Char) → List Char
  | [] => []
  | [w] => w
  | w :: ws => w ++ shy :: joinShy ws

/-- Boolean string-prefix test (`pfxB p s` iff `p` starts `s`). -/
def pfxB : List Char → List Char → Bool
  | [], _ => true
  | _ :: _, [] => false
  | a :: as, b :: bs => a == b && pfxB as bs

/-- Boolean substring test (`occursB p s` iff `p` occurs contiguously in `s`). -/
def occursB (p : List Char) : List Char → Bool
  | [] => p.isEmpty
  | c :: cs => pfxB p (c :: cs) || occursB p cs

/-! ## Hyphenation scanner (`typography.py`, `hyphenate`, lines 63–125)

The Python loop reads the contents of the `<body>` tag character by character,
accumulates words outside of tags, and splices the hyphenated word back into
`result` using an explicit position cursor `pos`. -/

/-- State of the scanning loop: mirrors the Python local variables
`result`, `word`, `in_tag`, `tag_name`, `reading_tag_name`, `in_h_tag`, `pos`.
`pos` is an `Int` because the splice arithmetic is done on Python integers. -/
structure ScanState where
  result : List Char
  word : List Char
  in_tag : Bool
  tag_name : List Char
  reading_tag_name : Bool
  in_h_tag : Bool
  pos : Int
deriving DecidableEq, Repr

/-- The regex `^h[1-6]$` applied to the accumulated tag name.  Python's `$`
also matches just before one trailing newline, hence the second case. -/
def isHOpenTag : List Char → Bool
  | ['h', d] => decide ('1' ≤ d ∧ d ≤ '6')
  | ['h', d, '\n'] => decide ('1' ≤ d ∧ d ≤ '6')
  | _ => false

/-- The regex `^/h[1-6]$` applied to the accumulated tag name. -/
def isHCloseTag : List Char → Bool
  | ['/', 'h', d] => decide ('1' ≤ d ∧ d ≤ '6')
  | ['/', 'h', d, '\n'] => decide ('1' ≤ d ∧ d ≤ '6')
  | _ => false

/-- The `if`/`elif` chain at the top of the loop body (lines 79–97): returns
the `process` flag together with the updated state. -/
def chainStep (alnum : Char → Bool) (st : ScanState) (c : Char) : Bool × ScanState :=
  if c == '<' then
    (true, { st with in_tag := true, reading_tag_name := true, tag_name := [] })
  else if st.in_tag && c == '>' then
    (false, { st with in_tag := false, reading_tag_name := false, word := [] })
  else if st.in_tag && c == ' ' then
    (false, { st with reading_tag_name := false })
  else if st.in_tag && st.reading_tag_name then
    (false, { st with tag_name := st.tag_name ++ [c] })
  else if !st.in_tag && alnum c then
    (false, { st with word := st.word ++ [c] })
  else if !st.in_tag then
    (true, st)
  else
    (false, st)

/-- The two heading-tag checks (lines 100–104). -/
def hChecks (st : ScanState) : ScanState :=
  let st2 := if !st.reading_tag_name && isHOpenTag st.tag_name then
    { st with in_h_tag := true } else st
  if !st2.reading_tag_name && isHCloseTag st2.tag_name then
    { st2 with in_h_tag := false } else st2

/-- The replacement computed for a finalised word (lines 111–119): words of
100 or more characters are left alone, as is a word for which the splitter
returns no syllables; otherwise the syllables are joined with soft hyphens. -/
def newWordOf (splitter : List Char → List (List Char)) (w : List Char) : List Char :=
  if w.length < 100 then
    if splitter w == [] then w else joinShy (splitter w)
  else w

/-- The word-finalisation block (lines 110–122): splice the (possibly
hyphenated) word back into `result` over its original span and shift `pos` by
the length difference. -/
def processWord (splitter : List Char → List (List Char)) (st : ScanState) (c : Char) :
    ScanState :=
  if st.word == [] then st
  else
    { st with
      result := pyTake st.result (st.pos - st.word.length - 1) ++ newWordOf splitter st.word ++
        c :: pyDrop st.result st.pos,
      pos := st.pos + (newWordOf splitter st.word).length - st.word.length }

/-- One full iteration of the loop body for character `c` (lines 78–125). -/
def hyphStep (alnum : Char → Bool) (splitter : List Char → List (List Char))
    (ignore_h_tags : Bool) (st : ScanState) (c : Char) : ScanState :=
  let p := chainStep alnum st c
  let st3 := hChecks p.2
  let process := p.1 && !(ignore_h_tags && st3.in_h_tag)
  let st4 := if process then { processWord splitter st3 c with word := [] } else st3
  { st4 with pos := st4.pos + 1 }

/-- Run the loop over the remaining characters. -/
def hyphScan (alnum : Char → Bool) (splitter : List Char → List (List Char))
    (ignore_h_tags : Bool) : List Char → ScanState → ScanState
  | [], st => st
  | c :: cs, st => hyphScan alnum splitter ignore_h_tags cs (hyphStep alnum splitter ignore_h_tags st c)

/-- The scanner applied to the body text `str(soup.body)`: `result` starts as
the text itself and `pos` starts at 1 (lines 63–70). -/
def hyphenate_body (alnum : Char → Bool) (splitter : List Char → List (List Char))
    (ignore_h_tags : Bool) (text : List Char) : List Char :=
  (hyphScan alnum splitter ignore_h_tags text
    { result := text, word := [], in_tag := false, tag_name := [],
      reading_tag_name := false, in_h_tag := false, pos := 1 }).result

/-! ## Language resolution and error behaviour (`hyphenate`, lines 47–61) -/

/-- The two exceptions `hyphenate` can raise. -/
inductive SeError where
  | invalidLanguage
  | missingDependency
deriving DecidableEq, Repr

/-- Language resolution: an explicit `language` argument wins; otherwise the
root element's `xml:lang` attribute, then its `lang` attribute (absence of the
root `<html>` element makes both attribute lookups fail, hence both `none`). -/
def resolveLanguage (language xmlLang langAttr : Option String) : Option String :=
  match language with
  | some l => some l
  | none =>
    match xmlLang with
    | some l => some l
    | none => langAttr

/-- Top of `hyphenate`: resolve the language (or raise
`InvalidLanguageException`), then build a `Hyphenator` for the `-`→`_`
normalised tag (or raise `MissingDependencyException`); on success run the
body scanner.  `installed` abstracts which pyhyphen dictionaries exist. -/
def hyphenate (language xmlLang langAttr : Option String) (installed : String → Bool)
    (alnum : Char → Bool) (splitter : List Char → List (List Char))
    (ignore_h_tags : Bool) (body : List Char) : Except SeError (List Char) :=
  match resolveLanguage language xmlLang langAttr with
  | none => .error .invalidLanguage
  | some lang =>
    if installed (lang.replace "-" "_") then
      .ok (hyphenate_body alnum splitter ignore_h_tags body)
    else
      .error .missingDependency

/-! ## Side scanners used in the statements about `hyphenate` -/

/-- No `<` occurs while already inside tag markup (tracking the same
`in_tag` updates as the scanner). -/
def noLt : Bool → List Char → Bool
  | _, [] => true
  | tag, c :: cs =>
    if c == '<' then (!tag) && noLt true cs
    else if tag && c == '>' then noLt false cs
    else noLt tag cs

/-- The `(in_tag, reading_tag_name, tag_name)` components of one step of the
scanner; they depend only on the character stream, not on the word buffer or
on the `ignore_h_tags` flag. -/
def tagUpd (it rd : Bool) (tn : List Char) (c : Char) : Bool × Bool × List Char :=
  if c == '<' then (true, true, [])
  else if it && c == '>' then (false, false, tn)
  else if it && c == ' ' then (it, false, tn)
  else if it && rd then (it, rd, tn ++ [c])
  else (it, rd, tn)

/-- The scan never completes an opening `h1`–`h6` tag name: after every step
either the tag name is still being read or it does not match `^h[1-6]$`. -/
def hFree : Bool → Bool → List Char → List Char → Bool
  | _, _, _, [] => true
  | it, rd, tn, c :: cs =>
    let u := tagUpd it rd tn c
    (u.2.1 || !(isHOpenTag u.2.2)) && hFree u.1 u.2.1 u.2.2 cs

/-! ## Helper state used by a witness below -/

/-- A scanner state holding a 100-character word whose span in `result` is
about to be finalised. -/
def longWordSt : ScanState :=
  { result := List.replicate 100 'a' ++ [' '], word := List.replicate 100 'a',
    in_tag := false, tag_name := [], reading_tag_name := false,
    in_h_tag := false, pos := 101 }

/-! ## Quoting-style classifier (`typography.py`, `guess_quoting_style`, lines 132–171) -/

/-- The capture of `(.*?)` between `<p>` and the first following quote glyph
`q`, with no intervening newline (an unescaped `.` does not match `\n`):
returns the captured characters and the remainder after the glyph, or `none`
when no such glyph is reachable. -/
def grabCap (q : Char) : List Char → Option (List Char × List Char)
  | [] => none
  | c :: cs =>
    if c == q then some ([], cs)
    else if c == '\n' then none
    else
      match grabCap q cs with
      | some (cap, rest) => some (c :: cap, rest)
      | none => none

/-- All captures of the regex `\t*<p>(.*?)q` over the text, scanning left to
right and resuming after each match, as `regex.findall` does.  The leading
`\t*` changes neither which matches are found nor the captures, so it is not
modelled.  The fuel starts at the text length and always suffices, because
every recursive call consumes at least one character. -/
def pCapturesF (q : Char) : Nat → List Char → List (List Char)
  | _, [] => []
  | 0, _ => []
  | fuel + 1, c :: cs =>
    if pfxB ("<p>".toList) (c :: cs) then
      match grabCap q (cs.drop 2) with
      | some (cap, rest) => cap :: pCapturesF q fuel rest
      | none => pCapturesF q fuel cs
    else pCapturesF q fuel cs

/-- `pattern.findall(xhtml)` for the paragraph-quote pattern with glyph `q`. -/
def pCaptures (q : Char) (s : List Char) : List (List Char) := pCapturesF q s.length s

/-- `lsq_count` (line 155): captures up to `‘` that contain no `“`. -/
def lsq_count (s : List Char) : Nat :=
  ((pCaptures '‘' s).filter (fun m => m.count '“' == 0)).length

/-- `ldq_count` (line 156): captures up to `“` that contain no `‘`. -/
def ldq_count (s : List Char) : Nat :=
  ((pCaptures '“' s).filter (fun m => m.count '‘' == 0)).length

/-- `american_percentage` (lines 159–164): the percentage of double-quote
first captures; the `ZeroDivisionError` handler leaves it at `0` when both
counts are zero.  Python's float division is embedded as exact rational
division. -/
def americanPercentage (s : List Char) : ℚ :=
  if ldq_count s + lsq_count s = 0 then 0
  else (ldq_count s : ℚ) / ((ldq_count s : ℚ) + (lsq_count s : ℚ)) * 100

/-- `guess_quoting_style` (lines 150–171), threshold 80. -/
def guess_quoting_style (s : List Char) : String :=
  if americanPercentage s ≥ 80 then "american"
  else if 100 - americanPercentage s ≥ 80 then "british"
  else "unsure"

/-! ## Quote conversion (`typography.py`, `convert_british_to_american`, lines 173–204)

Each `regex.sub` call is embedded as a left-to-right scanner: at every
position it either applies the (per-pattern) matcher, emitting the
replacement and resuming after the match as `re.sub` does, or copies one
character.  All patterns of this function match only forwards from the
current position, so a matcher is a function of the remaining suffix. -/

/-- One `regex.sub` pass: `m` returns `(replacement, remainder)` on a match.
Fuel starts at the text length and always suffices because every matcher
consumes at least one character. -/
def scanG (m : List Char → Option (List Char × List Char)) : Nat → List Char → List Char
  | _, [] => []
  | 0, s => s
  | fuel + 1, c :: cs =>
    match m (c :: cs) with
    | some (rep, rest) => rep ++ scanG m fuel rest
    | none => c :: scanG m fuel cs

/-- Run one pass over the whole text. -/
def runScan (m : List Char → Option (List Char × List Char)) (s : List Char) : List Char :=
  scanG m s.length s

/-- Matcher of a literal pattern `P` with literal replacement `r`. -/
def mLit (P r : List Char) (s : List Char) : Option (List Char × List Char) :=
  if pfxB P s then some (r, s.drop P.length) else none

/-- U+201C left double quotation mark. -/
def ldq : Char := '“'

/-- U+201D right double quotation mark. -/
def rdq : Char := '”'

/-- U+2018 left single quotation mark. -/
def lsq : Char := '‘'

/-- U+2019 right single quotation mark (the overloaded apostrophe glyph). -/
def rsq : Char := '’'

/-- U+2014 em dash. -/
def emDash : Char := '—'

/-- U+2026 horizontal ellipsis. -/
def hellip : Char := '…'

/-- U+2060 word joiner (present inside the patterns of lines 186–187). -/
def wj : Char := '\u2060'

/-- U+2009 thin space (present inside the patterns of lines 186–187). -/
def thinsp : Char := '\u2009'

/-- U+200A hair space (present inside the pattern of line 200). -/
def hairsp : Char := '\u200A'

/-- The placeholder token `<ldq>`. -/
def ldqP : List Char := "<ldq>".toList

/-- The placeholder token `<rdq>`. -/
def rdqP : List Char := "<rdq>".toList

/-- The placeholder token `<lsq>`. -/
def lsqP : List Char := "<lsq>".toList

/-- The placeholder token `<rsq>`. -/
def rsqP : List Char := "<rsq>".toList

/-- The placeholder token `<ap>`. -/
def apP : List Char := "<ap>".toList

/-- The five internal placeholder tokens of the conversion pipeline. -/
def placeholders : List (List Char) := [ldqP, rdqP, lsqP, rsqP, apP]

/-- Python's regex `\s` over Unicode text: the characters for which
`str.isspace` holds. -/
def pyWs (c : Char) : Bool :=
  c == ' ' || c == '\t' || c == '\n' || c == '\r' || c == '\x0b' || c == '\x0c' ||
  decide ('\x1c' ≤ c ∧ c ≤ '\x1f') || c == '\x85' || c == '\xa0' || c == '\u1680' ||
  decide ('\u2000' ≤ c ∧ c ≤ '\u200a') || c == '\u2028' || c == '\u2029' ||
  c == '\u202f' || c == '\u205f' || c == '\u3000'

/-- The character class `[a-z]`. -/
def lowerAZ (c : Char) : Bool := decide ('a' ≤ c ∧ c ≤ 'z')

/-- The character class `[\.\,\!\?\…\:\;]` of line 188. -/
def punct188 : List Char := ['.', ',', '!', '?', hellip, ':', ';']

/-- The character class `[!\?:;\)\s]` of line 201. -/
def class201 (c : Char) : Bool :=
  c == '!' || c == '?' || c == ':' || c == ';' || c == ')' || pyWs c

/-- The character class `[!\?:;\)]` of line 202. -/
def class202 (c : Char) : Bool :=
  c == '!' || c == '?' || c == ':' || c == ';' || c == ')'

/-- The literal part `<rdq>\u2060\u2009’` of the patterns of lines 186–187. -/
def patRdqApos : List Char := rdqP ++ [wj, thinsp, rsq]

/-- Matcher of line 186, `<rdq>\u2060\u2009’(\s+)` → `<rdq>\u2009<rsq>\1`. -/
def m186 (s : List Char) : Option (List Char × List Char) :=
  if pfxB patRdqApos s then
    let ws := (s.drop 8).takeWhile pyWs
    if ws = [] then none
    else some (rdqP ++ thinsp :: rsqP ++ ws, s.drop (8 + ws.length))
  else none

/-- Matcher of line 187, `<rdq>\u2060\u2009’</` → `<rdq>\u2009<rsq></`. -/
def m187 (s : List Char) : Option (List Char × List Char) :=
  mLit (patRdqApos ++ ['<', '/']) (rdqP ++ thinsp :: rsqP ++ ['<', '/']) s

/-- Matcher of line 188, `([\.\,\!\?\…\:\;])’` → `\1<rsq>`. -/
def m188 (s : List Char) : Option (List Char × List Char) :=
  match s with
  | p :: q :: rest =>
    if punct188.contains p && q == rsq then some (p :: rsqP, rest) else none
  | _ => none

/-- Matcher of line 189, `—’(\s+)` → `—<rsq>\1`. -/
def m189 (s : List Char) : Option (List Char × List Char) :=
  match s with
  | d :: q :: rest =>
    if d == emDash && q == rsq then
      let ws := rest.takeWhile pyWs
      if ws = [] then none
      else some (emDash :: rsqP ++ ws, rest.drop ws.length)
    else none
  | _ => none

/-- Matcher of line 190, `—’</` → `—<rsq></`. -/
def m190 (s : List Char) : Option (List Char × List Char) :=
  mLit [emDash, rsq, '<', '/'] (emDash :: rsqP ++ ['<', '/']) s

/-- Matcher of line 191, `([a-z])’([a-z])` → `\1<ap>\2`. -/
def m191 (s : List Char) : Option (List Char × List Char) :=
  match s with
  | a :: q :: b :: rest =>
    if lowerAZ a && q == rsq && lowerAZ b then some (a :: apP ++ [b], rest) else none
  | _ => none

/-- Matcher of line 192, `(\s+)’([a-z])` → `\1<ap>\2`.  The greedy `\s+`
captures the maximal whitespace run; backtracking cannot shorten it because
the following `’` is not whitespace. -/
def m192 (s : List Char) : Option (List Char × List Char) :=
  match s with
  | c :: cs =>
    if pyWs c then
      let run := cs.takeWhile pyWs
      match cs.drop run.length with
      | q :: b :: rest =>
        if q == rsq && lowerAZ b then some ((c :: run) ++ apP ++ [b], rest) else none
      | _ => none
    else none
  | [] => none

/-- Matcher of line 200, `’\u200A’` → `’\u200A”`. -/
def m200 (s : List Char) : Option (List Char × List Char) :=
  mLit [rsq, hairsp, rsq] [rsq, hairsp, rdq] s

/-- The lazy search of line 201: after a `“`, find the shortest
`[^‘”]+?[^s]` group followed by `’` and a `[!\?:;\)\s]` character; the
returned group includes the `[^s]` character. -/
def find201 : List Char → Option (List Char × Char × List Char)
  | [] => none
  | c1 :: tail =>
    if c1 == lsq || c1 == rdq then none
    else
      match tail with
      | x :: q :: c2 :: rest =>
        if !(x == 's') && q == rsq && class201 c2 then some ([c1, x], c2, rest)
        else
          match find201 tail with
          | some (g, cc, rest2) => some (c1 :: g, cc, rest2)
          | none => none
      | _ =>
        match find201 tail with
        | some (g, cc, rest2) => some (c1 :: g, cc, rest2)
        | none => none

/-- Matcher of line 201, `“([^‘”]+?[^s])’([!\?:;\)\s])` → `“\1”\2`. -/
def m201 (s : List Char) : Option (List Char × List Char) :=
  match s with
  | q :: cs =>
    if q == ldq then
      match find201 cs with
      | some (g, c2, rest) => some (ldq :: g ++ rdq :: [c2], rest)
      | none => none
    else none
  | [] => none

/-- The lazy search of line 202: after a `“`, find the shortest `[^‘”]+?`
group followed by `’` and a `[!\?:;\)]` character. -/
def find202 : List Char → Option (List Char × Char × List Char)
  | [] => none
  | c1 :: tail =>
    if c1 == lsq || c1 == rdq then none
    else
      match tail with
      | q :: c2 :: rest =>
        if q == rsq && class202 c2 then some ([c1], c2, rest)
        else
          match find202 tail with
          | some (g, cc, rest2) => some (c1 :: g, cc, rest2)
          | none => none
      | _ =>
        match find202 tail with
        | some (g, cc, rest2) => some (c1 :: g, cc, rest2)
        | none => none

/-- Matcher of line 202, `“([^‘”]+?)’([!\?:;\)])` → `“\1”\2`. -/
def m202 (s : List Char) : Option (List Char × List Char) :=
  match s with
  | q :: cs =>
    if q == ldq then
      match find202 cs with
      | some (g, c2, rest) => some (ldq :: g ++ rdq :: [c2], rest)
      | none => none
    else none
  | [] => none

/-- `convert_british_to_american` (lines 183–204): the ordered substitution
pipeline. -/
def convert_british_to_american (s : List Char) : List Char :=
  let s1 := runScan (mLit [ldq] ldqP) s
  let s2 := runScan (mLit [rdq] rdqP) s1
  let s3 := runScan (mLit [lsq] lsqP) s2
  let s4 := runScan m186 s3
  let s5 := runScan m187 s4
  let s6 := runScan m188 s5
  let s7 := runScan m189 s6
  let s8 := runScan m190 s7
  let s9 := runScan m191 s8
  let s10 := runScan m192 s9
  let s11 := runScan (mLit ldqP [lsq]) s10
  let s12 := runScan (mLit rdqP [rsq]) s11
  let s13 := runScan (mLit lsqP [ldq]) s12
  let s14 := runScan (mLit rsqP [rdq]) s13
  let s15 := runScan (mLit apP [rsq]) s14
  let s16 := runScan m200 s15
  let s17 := runScan m201 s16
  runScan m202 s17

/-- The possessive phrase of C6. -/
def boysHats : List Char := "the boys’ hats".toList

/-! ## Definitions used to state the content-preservation invariant (C1) -/

/-- The part of the accumulated word that is still live, i.e. still aligned
with its span in `result`: inside tag markup, or while heading-exclusion
suppresses processing, the word buffer is doomed to be discarded and its
characters already count as emitted output. -/
def liveW (flag : Bool) (st : ScanState) : List Char :=
  if st.in_tag || (flag && st.in_h_tag) then [] else st.word

/-- Invariant of the scanning loop relating the state to the already-emitted
output `done` and the yet-unread input `rest`. -/
def HInv (flag : Bool) (st : ScanState) (done rest : List Char) : Prop :=
  st.result = done ++ liveW flag st ++ rest ∧
  st.pos = ((done.length + (liveW flag st).length + 1 : ℕ) : ℤ) ∧
  (st.reading_tag_name = false → isHCloseTag st.tag_name = true → st.in_h_tag = false) ∧
  (st.in_tag = false → st.reading_tag_name = false)

/-- Relation between an input and an output of the corrective passes of
lines 201–202: the output differs from the input only by replacing some
occurrences of `’` with `”`. -/
inductive FlipQ : List Char → List Char → Prop where
  | nil : FlipQ [] []
  | keep (c : Char) {s t : List Char} : FlipQ s t → FlipQ (c :: s) (c :: t)
  | swap {s t : List Char} : FlipQ s t → FlipQ (rsq :: s) (rdq :: t)

/-- A matcher `m` is *inert inside* `W`: whenever it fires at a position
that is still within a live occurrence of `W`, the replacement re-emits the
remainder of `W` verbatim as its prefix. -/
def keepB (m : List Char → Option (List Char × List Char)) (W : List Char) : Prop :=
  ∀ k, k < W.length → ∀ v rep rest, m (W.drop k ++ v) = some (rep, rest) →
    ∃ t, rep = W.drop k ++ t

/-- A matcher `m` *respects* `W` from the left: a match starting strictly
before an occurrence of `W` either stops before the occurrence, or cuts off
a proper prefix of `W` that its replacement re-emits as a suffix, or
swallows `W` whole but keeps a copy of it inside the replacement. -/
def keepA (m : List Char → Option (List Char × List Char)) (W : List Char) : Prop :=
  ∀ u v rep rest, u ≠ [] → m (u ++ (W ++ v)) = some (rep, rest) →
    (∃ u', u'.length < u.length ∧ rest = u' ++ (W ++ v)) ∨
    (∃ j t, 0 < j ∧ j < W.length ∧ rep = t ++ W.take j ∧ rest = W.drop j ++ v) ∨
    occursB W rep = true

/-- A full pass preserves every occurrence of `W`. -/
def keepW (m : List Char → Option (List Char × List Char)) (W : List Char) : Prop :=
  ∀ s, occursB W s = true → occursB W (runScan m s) = true

/-! ## Small projection lemmas about the scanner step -/

lemma chainStep_in_h_tag (alnum : Char → Bool) (st : ScanState) (c : Char) :
    (chainStep alnum st c).2.in_h_tag = st.in_h_tag := by
  unfold chainStep; split_ifs <;> rfl

lemma chainStep_tagUpd (alnum : Char → Bool) (st : ScanState) (c : Char) :
    ((chainStep alnum st c).2.in_tag, (chainStep alnum st c).2.reading_tag_name,
      (chainStep alnum st c).2.tag_name)
      = tagUpd st.in_tag st.reading_tag_name st.tag_name c := by
  unfold chainStep tagUpd; split_ifs <;> rfl

lemma hChecks_in_tag (st : ScanState) : (hChecks st).in_tag = st.in_tag := by
  simp only [hChecks]; split_ifs <;> rfl

lemma hChecks_reading (st : ScanState) :
    (hChecks st).reading_tag_name = st.reading_tag_name := by
  simp only [hChecks]; split_ifs <;> rfl

lemma hChecks_tag_name (st : ScanState) : (hChecks st).tag_name = st.tag_name := by
  simp only [hChecks]; split_ifs <;> rfl

lemma hChecks_word (st : ScanState) : (hChecks st).word = st.word := by
  simp only [hChecks]; split_ifs <;> rfl

lemma hChecks_result (st : ScanState) : (hChecks st).result = st.result := by
  simp only [hChecks]; split_ifs <;> rfl

lemma hChecks_pos (st : ScanState) : (hChecks st).pos = st.pos := by
  simp only [hChecks]; split_ifs <;> rfl

lemma processWord_in_tag (sp : List Char → List (List Char)) (st : ScanState) (c : Char) :
    (processWord sp st c).in_tag = st.in_tag := by
  unfold processWord; split_ifs <;> rfl

lemma processWord_reading (sp : List Char → List (List Char)) (st : ScanState) (c : Char) :
    (processWord sp st c).reading_tag_name = st.reading_tag_name := by
  unfold processWord; split_ifs <;> rfl

lemma processWord_tag_name (sp : List Char → List (List Char)) (st : ScanState) (c : Char) :
    (processWord sp st c).tag_name = st.tag_name := by
  unfold processWord; split_ifs <;> rfl

lemma processWord_in_h_tag (sp : List Char → List (List Char)) (st : ScanState) (c : Char) :
    (processWord sp st c).in_h_tag = st.in_h_tag := by
  unfold processWord; split_ifs <;> rfl

lemma processWord_word (sp : List Char → List (List Char)) (st : ScanState) (c : Char) :
    (processWord sp st c).word = st.word := by
  unfold processWord; split_ifs <;> rfl

lemma hyphStep_tags (alnum : Char → Bool) (sp : List Char → List (List Char))
    (flag : Bool) (st : ScanState) (c : Char) :
    ((hyphStep alnum sp flag st c).in_tag, (hyphStep alnum sp flag st c).reading_tag_name,
      (hyphStep alnum sp flag st c).tag_name)
      = tagUpd st.in_tag st.reading_tag_name st.tag_name c := by
  have h := chainStep_tagUpd alnum st c
  unfold hyphStep; dsimp only
  split_ifs <;>
    simp_all [hChecks_in_tag, hChecks_reading, hChecks_tag_name,
      processWord_in_tag, processWord_reading, processWord_tag_name]

lemma hChecks_in_h_tag_false (st : ScanState) (h0 : st.in_h_tag = false)
    (h1 : st.reading_tag_name = true ∨ isHOpenTag st.tag_name = false) :
    (hChecks st).in_h_tag = false := by
  simp only [hChecks]
  split_ifs <;> simp_all

lemma hyphStep_flag_eq (alnum : Char → Bool) (sp : List Char → List (List Char))
    (st : ScanState) (c : Char) (h0 : st.in_h_tag = false)
    (h1 : (tagUpd st.in_tag st.reading_tag_name st.tag_name c).2.1 = true ∨
      isHOpenTag (tagUpd st.in_tag st.reading_tag_name st.tag_name c).2.2 = false) :
    hyphStep alnum sp true st c = hyphStep alnum sp false st c ∧
      (hyphStep alnum sp true st c).in_h_tag = false := by
  have htag := chainStep_tagUpd alnum st c
  have hih : (chainStep alnum st c).2.in_h_tag = st.in_h_tag := chainStep_in_h_tag alnum st c
  have h3 : (hChecks (chainStep alnum st c).2).in_h_tag = false := by
    apply hChecks_in_h_tag_false
    · rw [hih, h0]
    · rcases h1 with h1 | h1
      · left
        have := congrArg (fun t => t.2.1) htag
        simp only at this
        rw [this, h1]
      · right
        have := congrArg (fun t => t.2.2) htag
        simp only at this
        rw [this, h1]
  constructor
  · unfold hyphStep
    dsimp only
    rw [h3]
    simp
  · unfold hyphStep
    dsimp only
    rw [h3]
    simp only [Bool.and_false, Bool.not_false, Bool.and_true]
    split_ifs <;> simp [processWord_in_h_tag, h3]

lemma hyphScan_flag_eq (alnum : Char → Bool) (sp : List Char → List (List Char)) :
    ∀ (rest : List Char) (st : ScanState), st.in_h_tag = false →
      hFree st.in_tag st.reading_tag_name st.tag_name rest = true →
      hyphScan alnum sp true rest st = hyphScan alnum sp false rest st := by
  intro rest
  induction rest with
  | nil => intro st _ _; rfl
  | cons c cs ih =>
    intro st h0 hf
    simp only [hFree, Bool.and_eq_true, Bool.or_eq_true, Bool.not_eq_true'] at hf
    obtain ⟨hf1, hf2⟩ := hf
    obtain ⟨hstep, hih⟩ := hyphStep_flag_eq alnum sp st c h0 hf1
    show hyphScan alnum sp true cs (hyphStep alnum sp true st c) =
      hyphScan alnum sp false cs (hyphStep alnum sp false st c)
    rw [hstep]
    apply ih
    · rw [← hstep]; exact hih
    · have ht := hyphStep_tags alnum sp false st c
      have h1 := congrArg (fun t => t.1) ht
      have h2 := congrArg (fun t => t.2.1) ht
      have h3 := congrArg (fun t => t.2.2) ht
      simp only at h1 h2 h3
      rw [h1, h2, h3]
      exact hf2

/-- C10: on a body with no `h1`–`h6` tags the `ignore_h_tags` flag makes no
difference: the scanner output with the flag set equals the output without. -/
theorem c10_heading_flag_irrelevant (alnum : Char → Bool)
    (sp : List Char → List (List Char)) (t : List Char)
    (h : hFree false false [] t = true) :
    hyphenate_body alnum sp true t = hyphenate_body alnum sp false t := by
  unfold hyphenate_body
  rw [hyphScan_flag_eq alnum sp t _ rfl h]

/-- Witness for C10 at a concrete heading-free body. -/
theorem c10_heading_flag_irrelevant_witness :
    hyphenate_body (fun c => c.isAlphanum) (fun w => [w]) true ("<p>ab</p>".toList) =
      hyphenate_body (fun c => c.isAlphanum) (fun w => [w]) false ("<p>ab</p>".toList) :=
  c10_heading_flag_irrelevant _ _ _ (by decide)

/-- C8: `hyphenate` fails with `InvalidLanguageException` exactly when no
explicit language is supplied and the root element declares neither an
`xml:lang` nor a `lang` attribute. -/
theorem c8_invalid_language_iff (language xmlLang langAttr : Option String)
    (installed : String → Bool) (alnum : Char → Bool)
    (splitter : List Char → List (List Char)) (flag : Bool) (body : List Char) :
    hyphenate language xmlLang langAttr installed alnum splitter flag body =
        .error SeError.invalidLanguage ↔
      language = none ∧ xmlLang = none ∧ langAttr = none := by
  unfold hyphenate resolveLanguage
  cases language <;> cases xmlLang <;> cases langAttr <;> dsimp only
  all_goals try split_ifs
  all_goals simp_all

/-! ## C7: words of 100 or more characters -/

lemma pyTake_coe (s : List Char) (n : ℕ) : pyTake s (n : ℤ) = s.take n := by
  unfold pyTake
  rw [if_neg (by omega)]
  simp

lemma pyDrop_coe (s : List Char) (n : ℕ) : pyDrop s (n : ℤ) = s.drop n := by
  unfold pyDrop
  rw [if_neg (by omega)]
  simp

lemma pyTake_append_len (A rest : List Char) : pyTake (A ++ rest) (A.length : ℤ) = A := by
  rw [pyTake_coe]
  simp

lemma pyDrop_append_len (A rest : List Char) : pyDrop (A ++ rest) (A.length : ℤ) = rest := by
  rw [pyDrop_coe]
  simp

lemma chainStep_result (alnum : Char → Bool) (st : ScanState) (c : Char) :
    (chainStep alnum st c).2.result = st.result := by
  unfold chainStep; split_ifs <;> rfl

lemma chainStep_pos (alnum : Char → Bool) (st : ScanState) (c : Char) :
    (chainStep alnum st c).2.pos = st.pos := by
  unfold chainStep; split_ifs <;> rfl

lemma chainStep_fst_word (alnum : Char → Bool) (st : ScanState) (c : Char)
    (h : (chainStep alnum st c).1 = true) :
    (chainStep alnum st c).2.word = st.word := by
  unfold chainStep at h ⊢; split_ifs at h ⊢ <;> simp_all

lemma processWord_agree (sp1 sp2 : List Char → List (List Char)) (st : ScanState)
    (c : Char) (h : ∀ w, w.length < 100 → sp1 w = sp2 w) :
    processWord sp1 st c = processWord sp2 st c := by
  unfold processWord newWordOf
  by_cases h2 : st.word.length < 100
  · rw [h st.word h2]
  · split_ifs <;> rfl

lemma hyphStep_splitter_agree (alnum : Char → Bool) (sp1 sp2 : List Char → List (List Char))
    (flag : Bool) (st : ScanState) (c : Char)
    (h : ∀ w, w.length < 100 → sp1 w = sp2 w) :
    hyphStep alnum sp1 flag st c = hyphStep alnum sp2 flag st c := by
  unfold hyphStep
  dsimp only
  rw [processWord_agree sp1 sp2 _ c h]

lemma hyphScan_splitter_agree (alnum : Char → Bool) (sp1 sp2 : List Char → List (List Char))
    (flag : Bool) (h : ∀ w, w.length < 100 → sp1 w = sp2 w) :
    ∀ (rest : List Char) (st : ScanState),
      hyphScan alnum sp1 flag rest st = hyphScan alnum sp2 flag rest st := by
  intro rest
  induction rest with
  | nil => intro st; rfl
  | cons c cs ih =>
    intro st
    show hyphScan alnum sp1 flag cs (hyphStep alnum sp1 flag st c) =
      hyphScan alnum sp2 flag cs (hyphStep alnum sp2 flag st c)
    rw [hyphStep_splitter_agree alnum sp1 sp2 flag st c h]
    exact ih _

/-- C7: a word of 100 or more characters passes through unmodified.  First,
the scanner's output does not depend on what the splitter would answer on
words of length ≥ 100 (the splitter is never consulted on them); second, a
step that finalises a word of length ≥ 100 situated at its recorded span in
`result` leaves `result` unchanged. -/
theorem c7_long_word_safety (alnum : Char → Bool)
    (sp1 sp2 : List Char → List (List Char)) (flag : Bool) (t : List Char)
    (st : ScanState) (c : Char) (A B : List Char) :
    ((∀ w, w.length < 100 → sp1 w = sp2 w) →
        hyphenate_body alnum sp1 flag t = hyphenate_body alnum sp2 flag t) ∧
      (100 ≤ st.word.length → st.result = A ++ st.word ++ c :: B →
        st.pos = ((A.length + st.word.length + 1 : ℕ) : ℤ) →
        (hyphStep alnum sp1 flag st c).result = st.result) := by
  constructor
  · intro h
    unfold hyphenate_body
    rw [hyphScan_splitter_agree alnum sp1 sp2 flag h]
  · intro hlen hres hpos
    have hkey : ∀ st' : ScanState, st'.word = st.word → st'.result = st.result →
        st'.pos = st.pos → (processWord sp1 st' c).result = st.result := by
      intro st' hw hr hp
      unfold processWord
      have hwne : ¬(st'.word == []) = true := by
        rw [hw]
        intro hcon
        have : st.word = [] := by simpa using hcon
        rw [this] at hlen
        simp at hlen
      rw [if_neg hwne]
      dsimp only
      have hnl : ¬st'.word.length < 100 := by rw [hw]; omega
      have hnw : newWordOf sp1 st'.word = st'.word := by
        unfold newWordOf
        rw [if_neg hnl]
      rw [hnw, hw, hr, hp, hres, hpos]
      have e1 : ((A.length + st.word.length + 1 : ℕ) : ℤ) - st.word.length - 1 =
          (A.length : ℤ) := by push_cast; ring
      have hT : pyTake (A ++ st.word ++ c :: B)
          (((A.length + st.word.length + 1 : ℕ) : ℤ) - st.word.length - 1) = A := by
        rw [e1, List.append_assoc, pyTake_append_len]
      have e3 : A ++ st.word ++ c :: B = (A ++ st.word ++ [c]) ++ B := by simp
      have e4 : ((A.length + st.word.length + 1 : ℕ) : ℤ) =
          ((A ++ st.word ++ [c]).length : ℤ) := by
        simp [List.length_append]
        ring
      have hD : pyDrop (A ++ st.word ++ c :: B)
          ((A.length + st.word.length + 1 : ℕ) : ℤ) = B := by
        rw [e4, e3, pyDrop_append_len]
      rw [hT, hD]
    unfold hyphStep
    dsimp only
    split_ifs with hp
    · show ({ processWord sp1 (hChecks (chainStep alnum st c).2) c with
        word := [] }).result = st.result
      have hp1 : (chainStep alnum st c).1 = true := by
        rcases Bool.and_eq_true _ _ |>.mp hp with ⟨h1, _⟩
        exact h1
      exact hkey _ (by rw [hChecks_word, chainStep_fst_word alnum st c hp1])
        (by rw [hChecks_result, chainStep_result])
        (by rw [hChecks_pos, chainStep_pos])
    · rw [hChecks_result, chainStep_result]

/-- Witness for C7: a 100-character word is spliced back unchanged even under
a splitter that would split every word. -/
theorem c7_long_word_safety_witness :
    (hyphStep (fun c => c.isAlphanum) (fun _ => [['x']]) false longWordSt ' ').result =
      longWordSt.result :=
  (c7_long_word_safety (fun c => c.isAlphanum) (fun _ => [['x']]) (fun _ => [['x']])
    false [] longWordSt ' ' [] []).2 (by simp [longWordSt]) (by simp [longWordSt])
    (by simp [longWordSt])

/-! ## C1: content preservation of the hyphenation scanner -/

lemma stripShy_append (a b : List Char) : stripShy (a ++ b) = stripShy a ++ stripShy b := by
  unfold stripShy
  exact List.filter_append a b

lemma stripShy_cons_shy (l : List Char) : stripShy (shy :: l) = stripShy l := by
  simp [stripShy]

lemma stripShy_joinShy (l : List (List Char)) : stripShy (joinShy l) = stripShy l.flatten := by
  match l with
  | [] => rfl
  | [w] => simp [joinShy]
  | w :: x :: ws =>
    show stripShy (w ++ shy :: joinShy (x :: ws)) = _
    rw [stripShy_append]
    have : stripShy (shy :: joinShy (x :: ws)) = stripShy (joinShy (x :: ws)) :=
      stripShy_cons_shy _
    rw [this, stripShy_joinShy (x :: ws)]
    simp [stripShy_append]

lemma stripShy_newWordOf (sp : List Char → List (List Char))
    (hsp : ∀ w, (sp w).flatten = w) (w : List Char) :
    stripShy (newWordOf sp w) = stripShy w := by
  unfold newWordOf
  split_ifs with h1 h2
  · rfl
  · rw [stripShy_joinShy, hsp w]
  · rfl

lemma liveW_in_tag (flag : Bool) (st : ScanState) (h : st.in_tag = true) :
    liveW flag st = [] := by
  simp [liveW, h]

lemma liveW_suppressed (flag : Bool) (st : ScanState) (h : (flag && st.in_h_tag) = true) :
    liveW flag st = [] := by
  simp [liveW, h]

lemma liveW_word_nil (flag : Bool) (st : ScanState) (h : st.word = []) :
    liveW flag st = [] := by
  unfold liveW
  split_ifs <;> simp [h]

lemma liveW_live (flag : Bool) (st : ScanState) (h1 : st.in_tag = false)
    (h2 : (flag && st.in_h_tag) = false) : liveW flag st = st.word := by
  simp [liveW, h1, h2]

lemma hChecks_skip (st : ScanState) (h : st.reading_tag_name = true) : hChecks st = st := by
  simp only [hChecks]
  split_ifs <;> simp_all

lemma hChecks_close (st : ScanState) (h : st.reading_tag_name = false)
    (h2 : isHCloseTag st.tag_name = true) : (hChecks st).in_h_tag = false := by
  simp only [hChecks]
  split_ifs <;> simp_all

lemma hChecks_hcl (st : ScanState) :
    (hChecks st).reading_tag_name = false → isHCloseTag (hChecks st).tag_name = true →
      (hChecks st).in_h_tag = false := by
  intro h1 h2
  rw [hChecks_reading] at h1
  rw [hChecks_tag_name] at h2
  exact hChecks_close st h1 h2

lemma hChecks_stay_suppressed (st : ScanState) (h : st.in_h_tag = true)
    (hc : isHCloseTag st.tag_name = false) : (hChecks st).in_h_tag = true := by
  simp only [hChecks]
  split_ifs <;> simp_all

lemma noLt_step (st : ScanState) (c : Char) (rest : List Char)
    (hnl : noLt st.in_tag (c :: rest) = true) :
    noLt (tagUpd st.in_tag st.reading_tag_name st.tag_name c).1 rest = true ∧
      (st.in_tag = true → ¬c = '<') := by
  simp only [noLt, tagUpd] at hnl ⊢
  split_ifs at hnl ⊢ <;> simp_all

lemma processWord_splice (sp : List Char → List (List Char)) (st : ScanState) (c : Char)
    (done rest : List Char) (hw : ¬st.word = [])
    (hres : st.result = done ++ st.word ++ c :: rest)
    (hpos : st.pos = ((done.length + st.word.length + 1 : ℕ) : ℤ)) :
    (processWord sp st c).result = done ++ newWordOf sp st.word ++ c :: rest ∧
      (processWord sp st c).pos =
        ((done.length + (newWordOf sp st.word).length + 1 : ℕ) : ℤ) := by
  have hw' : ¬(st.word == []) = true := by simpa using hw
  unfold processWord
  rw [if_neg hw']
  dsimp only
  have e1 : st.pos - st.word.length - 1 = (done.length : ℤ) := by
    rw [hpos]; push_cast; ring
  have hT : pyTake st.result (st.pos - st.word.length - 1) = done := by
    rw [e1, hres, List.append_assoc, pyTake_append_len]
  have e3 : st.result = (done ++ st.word ++ [c]) ++ rest := by rw [hres]; simp
  have e4 : st.pos = ((done ++ st.word ++ [c]).length : ℤ) := by
    rw [hpos]
    simp [List.length_append]
    ring
  have hD : pyDrop st.result st.pos = rest := by
    rw [e4, e3, pyDrop_append_len]
  constructor
  · rw [hT, hD]
  · rw [hpos]
    push_cast
    ring

lemma step_inv_S1 (flag : Bool) (st st' : ScanState) (c : Char) (done rest : List Char)
    (hres : st.result = done ++ liveW flag st ++ (c :: rest))
    (hpos : st.pos = ((done.length + (liveW flag st).length + 1 : ℕ) : ℤ))
    (hW : liveW flag st = []) (hW' : liveW flag st' = [])
    (hrs : st'.result = st.result) (hps : st'.pos = st.pos + 1)
    (hcl' : st'.reading_tag_name = false → isHCloseTag st'.tag_name = true →
      st'.in_h_tag = false)
    (hrd' : st'.in_tag = false → st'.reading_tag_name = false) :
    HInv flag st' (done ++ [c]) rest ∧ stripShy st'.result = stripShy st.result := by
  refine ⟨⟨?_, ?_, hcl', hrd'⟩, by rw [hrs]⟩
  · rw [hrs, hres, hW, hW']
    simp
  · rw [hps, hpos, hW, hW']
    push_cast
    simp

lemma step_inv_S2 (flag : Bool) (st st' : ScanState) (c : Char) (done rest : List Char)
    (hres : st.result = done ++ liveW flag st ++ (c :: rest))
    (hpos : st.pos = ((done.length + (liveW flag st).length + 1 : ℕ) : ℤ))
    (hW : liveW flag st = st.word) (hW' : liveW flag st' = [])
    (hrs : st'.result = st.result) (hps : st'.pos = st.pos + 1)
    (hcl' : st'.reading_tag_name = false → isHCloseTag st'.tag_name = true →
      st'.in_h_tag = false)
    (hrd' : st'.in_tag = false → st'.reading_tag_name = false) :
    HInv flag st' (done ++ st.word ++ [c]) rest ∧
      stripShy st'.result = stripShy st.result := by
  refine ⟨⟨?_, ?_, hcl', hrd'⟩, by rw [hrs]⟩
  · rw [hrs, hres, hW, hW']
    simp
  · rw [hps, hpos, hW, hW']
    push_cast
    simp [List.length_append]
    ring

lemma step_inv_S3 (flag : Bool) (st st' : ScanState) (c : Char) (done rest : List Char)
    (hres : st.result = done ++ liveW flag st ++ (c :: rest))
    (hpos : st.pos = ((done.length + (liveW flag st).length + 1 : ℕ) : ℤ))
    (hW : liveW flag st = st.word) (hW' : liveW flag st' = st.word ++ [c])
    (hrs : st'.result = st.result) (hps : st'.pos = st.pos + 1)
    (hcl' : st'.reading_tag_name = false → isHCloseTag st'.tag_name = true →
      st'.in_h_tag = false)
    (hrd' : st'.in_tag = false → st'.reading_tag_name = false) :
    HInv flag st' done rest ∧ stripShy st'.result = stripShy st.result := by
  refine ⟨⟨?_, ?_, hcl', hrd'⟩, by rw [hrs]⟩
  · rw [hrs, hres, hW, hW']
    simp
  · rw [hps, hpos, hW, hW']
    push_cast
    simp [List.length_append]
    ring

lemma step_inv_S5 (flag : Bool) (sp : List Char → List (List Char))
    (hsp : ∀ w, (sp w).flatten = w) (st st' : ScanState) (c : Char)
    (done rest : List Char)
    (hres : st.result = done ++ liveW flag st ++ (c :: rest))
    (hW : liveW flag st = st.word)
    (hrs : st'.result = done ++ newWordOf sp st.word ++ c :: rest)
    (hps : st'.pos = ((done.length + (newWordOf sp st.word).length + 1 : ℕ) : ℤ) + 1)
    (hW' : liveW flag st' = [])
    (hcl' : st'.reading_tag_name = false → isHCloseTag st'.tag_name = true →
      st'.in_h_tag = false)
    (hrd' : st'.in_tag = false → st'.reading_tag_name = false) :
    HInv flag st' (done ++ newWordOf sp st.word ++ [c]) rest ∧
      stripShy st'.result = stripShy st.result := by
  refine ⟨⟨?_, ?_, hcl', hrd'⟩, ?_⟩
  · rw [hrs, hW']
    simp
  · rw [hps, hW']
    push_cast
    simp [List.length_append]
    ring
  · rw [hrs, hres, hW]
    simp only [stripShy_append]
    rw [stripShy_newWordOf sp hsp]

lemma step_inv_lt (alnum : Char → Bool) (sp : List Char → List (List Char)) (flag : Bool)
    (st : ScanState) (rest done : List Char)
    (hsp : ∀ w, (sp w).flatten = w)
    (hit : st.in_tag = false)
    (inv : HInv flag st done ('<' :: rest)) :
    ∃ done', HInv flag (hyphStep alnum sp flag st '<') done' rest ∧
      stripShy (hyphStep alnum sp flag st '<').result = stripShy st.result := by
  obtain ⟨hres, hpos, hcl, hrd⟩ := inv
  have hchain : chainStep alnum st '<' =
      (true, { st with in_tag := true, reading_tag_name := true, tag_name := [] }) := by
    simp [chainStep]
  have hskip : hChecks { st with in_tag := true, reading_tag_name := true, tag_name := [] } =
      { st with in_tag := true, reading_tag_name := true, tag_name := [] } :=
    hChecks_skip _ rfl
  by_cases hsup : (flag && st.in_h_tag) = true
  · have hstep : hyphStep alnum sp flag st '<' =
        { st with
          in_tag := true
          reading_tag_name := true
          tag_name := []
          pos := st.pos + 1 } := by
      simp [hyphStep, hchain, hskip, hsup]
    refine ⟨done ++ ['<'], ?_⟩
    rw [hstep]
    exact step_inv_S1 flag st _ '<' done rest hres hpos (liveW_suppressed flag st hsup)
      (liveW_in_tag _ _ rfl) rfl rfl (fun h => by simp at h) (fun h => by simp at h)
  · have hsup' : (flag && st.in_h_tag) = false := by simpa using hsup
    have hW : liveW flag st = st.word := liveW_live flag st hit hsup'
    by_cases hw : st.word = []
    · have hstep : hyphStep alnum sp flag st '<' =
          { st with
            in_tag := true
            reading_tag_name := true
            tag_name := []
            word := []
            pos := st.pos + 1 } := by
        simp [hyphStep, hchain, hChecks_skip, hsup', processWord, hw]
      refine ⟨done ++ ['<'], ?_⟩
      rw [hstep]
      exact step_inv_S1 flag st _ '<' done rest hres hpos (by rw [hW, hw])
        (liveW_in_tag _ _ rfl) rfl rfl (fun h => by simp at h) (fun h => by simp at h)
    · have hres3 : st.result = done ++ st.word ++ '<' :: rest := by
        rw [hres, hW]
      have hpos3 : st.pos = ((done.length + st.word.length + 1 : ℕ) : ℤ) := by
        rw [hpos, hW]
      obtain ⟨hpwr, hpwp⟩ := processWord_splice sp
        { st with in_tag := true, reading_tag_name := true, tag_name := [] } '<' done rest
        hw hres3 hpos3
      have hstep : hyphStep alnum sp flag st '<' =
          { processWord sp { st with in_tag := true, reading_tag_name := true, tag_name := [] } '<' with
            word := []
            pos := (processWord sp { st with in_tag := true, reading_tag_name := true, tag_name := [] } '<').pos + 1 } := by
        simp [hyphStep, hchain, hChecks_skip, hsup']
      refine ⟨done ++ newWordOf sp st.word ++ ['<'], ?_⟩
      rw [hstep]
      refine step_inv_S5 flag sp hsp st _ '<' done rest hres hW ?_ ?_ ?_ ?_ ?_
      · exact hpwr
      · rw [hpwp]
      · refine liveW_in_tag _ _ ?_
        show (processWord sp _ '<').in_tag = true
        rw [processWord_in_tag]
      · intro h
        exfalso
        revert h
        show ¬(processWord sp _ '<').reading_tag_name = false
        rw [processWord_reading]
        simp
      · intro h
        exfalso
        revert h
        show ¬(processWord sp _ '<').in_tag = false
        rw [processWord_in_tag]
        simp

lemma step_inv_gt (alnum : Char → Bool) (sp : List Char → List (List Char)) (flag : Bool)
    (st : ScanState) (rest done : List Char)
    (hit : st.in_tag = true)
    (inv : HInv flag st done ('>' :: rest)) :
    ∃ done', HInv flag (hyphStep alnum sp flag st '>') done' rest ∧
      stripShy (hyphStep alnum sp flag st '>').result = stripShy st.result := by
  obtain ⟨hres, hpos, hcl, hrd⟩ := inv
  have hstep : hyphStep alnum sp flag st '>' =
      { hChecks { st with in_tag := false, reading_tag_name := false, word := [] } with
        pos := (hChecks { st with in_tag := false, reading_tag_name := false, word := [] }).pos + 1 } := by
    simp [hyphStep, chainStep, hit]
  refine ⟨done ++ ['>'], ?_⟩
  rw [hstep]
  refine step_inv_S1 flag st _ '>' done rest hres hpos (liveW_in_tag flag st hit) ?_ ?_ ?_ ?_ ?_
  · refine liveW_word_nil _ _ ?_
    show (hChecks _).word = []
    rw [hChecks_word]
  · show (hChecks _).result = st.result
    rw [hChecks_result]
  · show (hChecks _).pos + 1 = st.pos + 1
    rw [hChecks_pos]
  · exact fun h1 h2 => hChecks_hcl _ h1 h2
  · intro _
    show (hChecks _).reading_tag_name = false
    rw [hChecks_reading]

lemma step_inv_space (alnum : Char → Bool) (sp : List Char → List (List Char)) (flag : Bool)
    (st : ScanState) (rest done : List Char)
    (hit : st.in_tag = true)
    (inv : HInv flag st done (' ' :: rest)) :
    ∃ done', HInv flag (hyphStep alnum sp flag st ' ') done' rest ∧
      stripShy (hyphStep alnum sp flag st ' ').result = stripShy st.result := by
  obtain ⟨hres, hpos, hcl, hrd⟩ := inv
  have hstep : hyphStep alnum sp flag st ' ' =
      { hChecks { st with reading_tag_name := false } with
        pos := (hChecks { st with reading_tag_name := false }).pos + 1 } := by
    simp [hyphStep, chainStep, hit]
  refine ⟨done ++ [' '], ?_⟩
  rw [hstep]
  refine step_inv_S1 flag st _ ' ' done rest hres hpos (liveW_in_tag flag st hit) ?_ ?_ ?_ ?_ ?_
  · refine liveW_in_tag _ _ ?_
    show (hChecks _).in_tag = true
    rw [hChecks_in_tag]
    exact hit
  · show (hChecks _).result = st.result
    rw [hChecks_result]
  · show (hChecks _).pos + 1 = st.pos + 1
    rw [hChecks_pos]
  · exact fun h1 h2 => hChecks_hcl _ h1 h2
  · intro h
    exfalso
    replace h : (hChecks { st with reading_tag_name := false }).in_tag = false := h
    rw [hChecks_in_tag] at h
    replace h : st.in_tag = false := h
    rw [hit] at h
    exact Bool.noConfusion h

lemma step_inv_tagname (alnum : Char → Bool) (sp : List Char → List (List Char)) (flag : Bool)
    (st : ScanState) (c : Char) (rest done : List Char)
    (hc1 : ¬c = '<') (hc2 : ¬c = '>') (hc3 : ¬c = ' ')
    (hit : st.in_tag = true) (hred : st.reading_tag_name = true)
    (inv : HInv flag st done (c :: rest)) :
    ∃ done', HInv flag (hyphStep alnum sp flag st c) done' rest ∧
      stripShy (hyphStep alnum sp flag st c).result = stripShy st.result := by
  obtain ⟨hres, hpos, hcl, hrd⟩ := inv
  have hb1 : (c == '<') = false := by simp [hc1]
  have hb2 : (c == '>') = false := by simp [hc2]
  have hb3 : (c == ' ') = false := by simp [hc3]
  have hstep : hyphStep alnum sp flag st c =
      { st with tag_name := st.tag_name ++ [c]
                pos := st.pos + 1 } := by
    simp [hyphStep, chainStep, hb1, hb2, hb3, hit, hred, hChecks_skip]
  refine ⟨done ++ [c], ?_⟩
  rw [hstep]
  refine step_inv_S1 flag st _ c done rest hres hpos (liveW_in_tag flag st hit) ?_ ?_ ?_ ?_ ?_
  · exact liveW_in_tag _ _ hit
  · rfl
  · rfl
  · intro h1 _
    exfalso
    replace h1 : st.reading_tag_name = false := h1
    rw [hred] at h1
    exact Bool.noConfusion h1
  · intro h
    exfalso
    replace h : st.in_tag = false := h
    rw [hit] at h
    exact Bool.noConfusion h

lemma step_inv_intag_other (alnum : Char → Bool) (sp : List Char → List (List Char))
    (flag : Bool) (st : ScanState) (c : Char) (rest done : List Char)
    (hc1 : ¬c = '<') (hc2 : ¬c = '>') (hc3 : ¬c = ' ')
    (hit : st.in_tag = true) (hred : st.reading_tag_name = false)
    (inv : HInv flag st done (c :: rest)) :
    ∃ done', HInv flag (hyphStep alnum sp flag st c) done' rest ∧
      stripShy (hyphStep alnum sp flag st c).result = stripShy st.result := by
  obtain ⟨hres, hpos, hcl, hrd⟩ := inv
  have hb1 : (c == '<') = false := by simp [hc1]
  have hb2 : (c == '>') = false := by simp [hc2]
  have hb3 : (c == ' ') = false := by simp [hc3]
  have hstep : hyphStep alnum sp flag st c =
      { hChecks st with pos := (hChecks st).pos + 1 } := by
    simp [hyphStep, chainStep, hb1, hb2, hb3, hit, hred]
  refine ⟨done ++ [c], ?_⟩
  rw [hstep]
  refine step_inv_S1 flag st _ c done rest hres hpos (liveW_in_tag flag st hit) ?_ ?_ ?_ ?_ ?_
  · refine liveW_in_tag _ _ ?_
    show (hChecks _).in_tag = true
    rw [hChecks_in_tag]
    exact hit
  · show (hChecks _).result = st.result
    rw [hChecks_result]
  · show (hChecks _).pos + 1 = st.pos + 1
    rw [hChecks_pos]
  · exact fun h1 h2 => hChecks_hcl _ h1 h2
  · intro h
    exfalso
    replace h : (hChecks st).in_tag = false := h
    rw [hChecks_in_tag] at h
    rw [hit] at h
    exact Bool.noConfusion h

lemma step_inv_alnum (alnum : Char → Bool) (sp : List Char → List (List Char)) (flag : Bool)
    (st : ScanState) (c : Char) (rest done : List Char)
    (hc1 : ¬c = '<') (hit : st.in_tag = false) (hal : alnum c = true)
    (inv : HInv flag st done (c :: rest)) :
    ∃ done', HInv flag (hyphStep alnum sp flag st c) done' rest ∧
      stripShy (hyphStep alnum sp flag st c).result = stripShy st.result := by
  obtain ⟨hres, hpos, hcl, hrd⟩ := inv
  have hred : st.reading_tag_name = false := hrd hit
  have hb1 : (c == '<') = false := by simp [hc1]
  have hstep : hyphStep alnum sp flag st c =
      { hChecks { st with word := st.word ++ [c] } with
        pos := (hChecks { st with word := st.word ++ [c] }).pos + 1 } := by
    simp [hyphStep, chainStep, hb1, hit, hal]
  rw [hstep]
  have hcl' : ∀ st' : ScanState,
      st' = { hChecks { st with word := st.word ++ [c] } with
        pos := (hChecks { st with word := st.word ++ [c] }).pos + 1 } →
      st'.reading_tag_name = false → isHCloseTag st'.tag_name = true →
        st'.in_h_tag = false := by
    intro st' heq h1 h2
    subst heq
    exact hChecks_hcl _ h1 h2
  have hrd' : ({ hChecks { st with word := st.word ++ [c] } with
      pos := (hChecks { st with word := st.word ++ [c] }).pos + 1 } : ScanState).in_tag = false →
      ({ hChecks { st with word := st.word ++ [c] } with
      pos := (hChecks { st with word := st.word ++ [c] }).pos + 1 } : ScanState).reading_tag_name = false := by
    intro _
    show (hChecks _).reading_tag_name = false
    rw [hChecks_reading]
    exact hred
  by_cases hsupE : (flag && st.in_h_tag) = true
  · -- entry suppressed: stays suppressed, word chars count as emitted output
    obtain ⟨hfl, hih⟩ := Bool.and_eq_true_iff.mp hsupE
    have hclF : isHCloseTag st.tag_name = false := by
      by_contra h2
      have h2' : isHCloseTag st.tag_name = true := by simpa using h2
      have := hcl hred h2'
      rw [this] at hih
      exact Bool.noConfusion hih
    have hih3 : (hChecks { st with word := st.word ++ [c] }).in_h_tag = true :=
      hChecks_stay_suppressed _ (show st.in_h_tag = true from hih)
        (show isHCloseTag st.tag_name = false from hclF)
    refine ⟨done ++ [c], ?_⟩
    refine step_inv_S1 flag st _ c done rest hres hpos (liveW_suppressed flag st hsupE) ?_ ?_ ?_
      (hcl' _ rfl) hrd'
    · refine liveW_suppressed _ _ ?_
      show (flag && (hChecks { st with word := st.word ++ [c] }).in_h_tag) = true
      rw [hih3, hfl]
      rfl
    · show (hChecks _).result = st.result
      rw [hChecks_result]
    · show (hChecks _).pos + 1 = st.pos + 1
      rw [hChecks_pos]
  · have hsupE' : (flag && st.in_h_tag) = false := by simpa using hsupE
    have hW : liveW flag st = st.word := liveW_live flag st hit hsupE'
    by_cases hex : (flag && (hChecks { st with word := st.word ++ [c] }).in_h_tag) = true
    · -- the lingering tag name re-enables suppression: the word is doomed
      refine ⟨done ++ st.word ++ [c], ?_⟩
      refine step_inv_S2 flag st _ c done rest hres hpos hW ?_ ?_ ?_ (hcl' _ rfl) hrd'
      · exact liveW_suppressed _ _ hex
      · show (hChecks _).result = st.result
        rw [hChecks_result]
      · show (hChecks _).pos + 1 = st.pos + 1
        rw [hChecks_pos]
    · -- the word stays live and grows by one character
      have hex' : (flag && (hChecks { st with word := st.word ++ [c] }).in_h_tag) = false := by
        simpa using hex
      refine ⟨done, ?_⟩
      refine step_inv_S3 flag st _ c done rest hres hpos hW ?_ ?_ ?_ (hcl' _ rfl) hrd'
      · have h1 : ({ hChecks { st with word := st.word ++ [c] } with
            pos := (hChecks { st with word := st.word ++ [c] }).pos + 1 } : ScanState).in_tag
            = false := by
          show (hChecks _).in_tag = false
          rw [hChecks_in_tag]
          exact hit
        rw [liveW_live _ _ h1 hex']
        show (hChecks _).word = st.word ++ [c]
        rw [hChecks_word]
      · show (hChecks _).result = st.result
        rw [hChecks_result]
      · show (hChecks _).pos + 1 = st.pos + 1
        rw [hChecks_pos]

lemma step_inv_boundary (alnum : Char → Bool) (sp : List Char → List (List Char))
    (flag : Bool) (st : ScanState) (c : Char) (rest done : List Char)
    (hsp : ∀ w, (sp w).flatten = w)
    (hc1 : ¬c = '<') (hit : st.in_tag = false) (hal : alnum c = false)
    (inv : HInv flag st done (c :: rest)) :
    ∃ done', HInv flag (hyphStep alnum sp flag st c) done' rest ∧
      stripShy (hyphStep alnum sp flag st c).result = stripShy st.result := by
  obtain ⟨hres, hpos, hcl, hrd⟩ := inv
  have hred : st.reading_tag_name = false := hrd hit
  have hb1 : (c == '<') = false := by simp [hc1]
  by_cases hex : (flag && (hChecks st).in_h_tag) = true
  · -- processing suppressed by heading exclusion
    have hstep : hyphStep alnum sp flag st c =
        { hChecks st with pos := (hChecks st).pos + 1 } := by
      simp [hyphStep, chainStep, hb1, hit, hal, hex]
    rw [hstep]
    have hcl'' : ∀ (h1 : ({ hChecks st with pos := (hChecks st).pos + 1 } :
        ScanState).reading_tag_name = false)
        (h2 : isHCloseTag ({ hChecks st with pos := (hChecks st).pos + 1 } :
          ScanState).tag_name = true),
        ({ hChecks st with pos := (hChecks st).pos + 1 } : ScanState).in_h_tag = false :=
      fun h1 h2 => hChecks_hcl _ h1 h2
    have hrd'' : ({ hChecks st with pos := (hChecks st).pos + 1 } : ScanState).in_tag = false →
        ({ hChecks st with pos := (hChecks st).pos + 1 } : ScanState).reading_tag_name = false := by
      intro _
      show (hChecks st).reading_tag_name = false
      rw [hChecks_reading]
      exact hred
    by_cases hsupE : (flag && st.in_h_tag) = true
    · refine ⟨done ++ [c], ?_⟩
      refine step_inv_S1 flag st _ c done rest hres hpos (liveW_suppressed flag st hsupE) ?_ ?_ ?_
        hcl'' hrd''
      · exact liveW_suppressed _ _ hex
      · show (hChecks st).result = st.result
        rw [hChecks_result]
      · show (hChecks st).pos + 1 = st.pos + 1
        rw [hChecks_pos]
    · have hsupE' : (flag && st.in_h_tag) = false := by simpa using hsupE
      have hW : liveW flag st = st.word := liveW_live flag st hit hsupE'
      refine ⟨done ++ st.word ++ [c], ?_⟩
      refine step_inv_S2 flag st _ c done rest hres hpos hW ?_ ?_ ?_ hcl'' hrd''
      · exact liveW_suppressed _ _ hex
      · show (hChecks st).result = st.result
        rw [hChecks_result]
      · show (hChecks st).pos + 1 = st.pos + 1
        rw [hChecks_pos]
  · -- processing happens
    have hex' : (flag && (hChecks st).in_h_tag) = false := by simpa using hex
    have hsupE' : (flag && st.in_h_tag) = false := by
      by_contra hcon
      have hcon' : (flag && st.in_h_tag) = true := by simpa using hcon
      obtain ⟨hfl, hih⟩ := Bool.and_eq_true_iff.mp hcon'
      have hclF : isHCloseTag st.tag_name = false := by
        by_contra h2
        have h2' : isHCloseTag st.tag_name = true := by simpa using h2
        have := hcl hred h2'
        rw [this] at hih
        exact Bool.noConfusion hih
      have h3 := hChecks_stay_suppressed st hih hclF
      rw [hfl, h3] at hex'
      exact Bool.noConfusion hex'
    have hW : liveW flag st = st.word := liveW_live flag st hit hsupE'
    by_cases hw : st.word = []
    · have hstep : hyphStep alnum sp flag st c =
          { hChecks st with word := []
                            pos := (hChecks st).pos + 1 } := by
        simp [hyphStep, chainStep, hb1, hit, hal, hex', processWord, hChecks_word, hw]
      rw [hstep]
      refine ⟨done ++ [c], ?_⟩
      refine step_inv_S1 flag st _ c done rest hres hpos (by rw [hW, hw]) ?_ ?_ ?_ ?_ ?_
      · exact liveW_word_nil _ _ rfl
      · show (hChecks st).result = st.result
        rw [hChecks_result]
      · show (hChecks st).pos + 1 = st.pos + 1
        rw [hChecks_pos]
      · intro h1 h2
        exact hChecks_hcl _ h1 h2
      · intro _
        show (hChecks st).reading_tag_name = false
        rw [hChecks_reading]
        exact hred
    · have hres3 : (hChecks st).result = done ++ (hChecks st).word ++ c :: rest := by
        rw [hChecks_result, hChecks_word, hres, hW]
      have hpos3 : (hChecks st).pos =
          ((done.length + (hChecks st).word.length + 1 : ℕ) : ℤ) := by
        rw [hChecks_pos, hChecks_word, hpos, hW]
      have hw3 : ¬(hChecks st).word = [] := by
        rw [hChecks_word]
        exact hw
      obtain ⟨hpwr, hpwp⟩ := processWord_splice sp (hChecks st) c done rest hw3 hres3 hpos3
      rw [hChecks_word] at hpwr hpwp
      have hstep : hyphStep alnum sp flag st c =
          { processWord sp (hChecks st) c with
            word := []
            pos := (processWord sp (hChecks st) c).pos + 1 } := by
        simp [hyphStep, chainStep, hb1, hit, hal, hex']
      rw [hstep]
      refine ⟨done ++ newWordOf sp st.word ++ [c], ?_⟩
      refine step_inv_S5 flag sp hsp st _ c done rest hres hW ?_ ?_ ?_ ?_ ?_
      · exact hpwr
      · rw [hpwp]
      · exact liveW_word_nil _ _ rfl
      · intro h1 h2
        replace h1 : (processWord sp (hChecks st) c).reading_tag_name = false := h1
        replace h2 : isHCloseTag (processWord sp (hChecks st) c).tag_name = true := h2
        rw [processWord_reading] at h1
        rw [processWord_tag_name] at h2
        show (processWord sp (hChecks st) c).in_h_tag = false
        rw [processWord_in_h_tag]
        exact hChecks_hcl _ h1 h2
      · intro _
        show (processWord sp (hChecks st) c).reading_tag_name = false
        rw [processWord_reading, hChecks_reading]
        exact hred

lemma hyphStep_inv (alnum : Char → Bool) (sp : List Char → List (List Char)) (flag : Bool)
    (hsp : ∀ w, (sp w).flatten = w) (st : ScanState) (c : Char) (rest done : List Char)
    (hnl : noLt st.in_tag (c :: rest) = true)
    (inv : HInv flag st done (c :: rest)) :
    ∃ done', HInv flag (hyphStep alnum sp flag st c) done' rest ∧
      stripShy (hyphStep alnum sp flag st c).result = stripShy st.result := by
  by_cases hc1 : c = '<'
  · subst hc1
    have hit : st.in_tag = false := by
      by_cases h : st.in_tag = true
      · exact absurd rfl ((noLt_step st '<' rest hnl).2 h)
      · simpa using h
    exact step_inv_lt alnum sp flag st rest done hsp hit inv
  · by_cases hit : st.in_tag = true
    · by_cases hc2 : c = '>'
      · subst hc2
        exact step_inv_gt alnum sp flag st rest done hit inv
      · by_cases hc3 : c = ' '
        · subst hc3
          exact step_inv_space alnum sp flag st rest done hit inv
        · by_cases hred : st.reading_tag_name = true
          · exact step_inv_tagname alnum sp flag st c rest done hc1 hc2 hc3 hit hred inv
          · exact step_inv_intag_other alnum sp flag st c rest done hc1 hc2 hc3 hit
              (by simpa using hred) inv
    · have hit' : st.in_tag = false := by simpa using hit
      by_cases hal : alnum c = true
      · exact step_inv_alnum alnum sp flag st c rest done hc1 hit' hal inv
      · exact step_inv_boundary alnum sp flag st c rest done hsp hc1 hit'
          (by simpa using hal) inv

lemma hyphScan_strip (alnum : Char → Bool) (sp : List Char → List (List Char)) (flag : Bool)
    (hsp : ∀ w, (sp w).flatten = w) :
    ∀ (rest : List Char) (st : ScanState) (done : List Char),
      noLt st.in_tag rest = true → HInv flag st done rest →
      stripShy (hyphScan alnum sp flag rest st).result = stripShy st.result := by
  intro rest
  induction rest with
  | nil => intro st done _ _; rfl
  | cons c cs ih =>
    intro st done hnl inv
    obtain ⟨done', inv', hstrip⟩ := hyphStep_inv alnum sp flag hsp st c cs done hnl inv
    have hnl' : noLt (hyphStep alnum sp flag st c).in_tag cs = true := by
      have ht := hyphStep_tags alnum sp flag st c
      have h1 := congrArg (fun t => t.1) ht
      simp only at h1
      rw [h1]
      exact (noLt_step st c cs hnl).1
    show stripShy (hyphScan alnum sp flag cs (hyphStep alnum sp flag st c)).result = _
    rw [ih (hyphStep alnum sp flag st c) done' hnl' inv']
    exact hstrip

lemma hyphenate_body_strip (alnum : Char → Bool) (sp : List Char → List (List Char))
    (flag : Bool) (t : List Char) (hsp : ∀ w, (sp w).flatten = w)
    (hnl : noLt false t = true) :
    stripShy (hyphenate_body alnum sp flag t) = stripShy t := by
  unfold hyphenate_body
  refine hyphScan_strip alnum sp flag hsp t _ [] hnl ⟨?_, ?_, ?_, ?_⟩
  · simp [liveW]
  · simp [liveW]
  · intro _ h2
    simp [isHCloseTag] at h2
  · intro _
    rfl

/-- C1 (amended): for a syllable splitter whose syllables concatenate back to
the word, and a body text with no pre-existing soft hyphen and no `<` inside
tag markup, removing every soft hyphen from the scanner output restores the
body text exactly: no character is added, removed or reordered. -/
theorem c1_hyphenation_preserves_content (alnum : Char → Bool)
    (sp : List Char → List (List Char)) (flag : Bool) (t : List Char)
    (hsp : ∀ w, (sp w).flatten = w)
    (hnl : noLt false t = true)
    (hshy : shy ∉ t) :
    stripShy (hyphenate_body alnum sp flag t) = t := by
  rw [hyphenate_body_strip alnum sp flag t hsp hnl]
  refine List.filter_eq_self.mpr (fun a ha => ?_)
  simp only [Bool.not_eq_true', beq_eq_false_iff_ne]
  intro h
  rw [h] at ha
  exact hshy ha

/-- C1 counterexample to the claim as stated: a body that already contains a
soft hyphen character is not recovered verbatim by stripping the markers. -/
theorem c1_counterexample :
    stripShy (hyphenate_body (fun c => c.isAlphanum) (fun _ => []) false [shy]) ≠ [shy] := by
  decide

/-- Witness for the amended C1 at a concrete body text. -/
theorem c1_hyphenation_preserves_content_witness :
    stripShy (hyphenate_body (fun c => c.isAlphanum) (fun w => [w]) true
      ("<p>ab cd</p>".toList)) = "<p>ab cd</p>".toList :=
  c1_hyphenation_preserves_content _ _ _ _ (fun w => by simp) (by decide) (by decide)

/-! ## C3 and C4: the classifier -/

/-- C3 counterexample: on a document with zero qualifying captures of either
kind the classifier does not return `unsure`: the percentage defaults to `0`
and the British branch (`100 - 0 >= 80`) fires. -/
theorem c3_counterexample :
    lsq_count [] = 0 ∧ ldq_count [] = 0 ∧ guess_quoting_style [] ≠ "unsure" := by
  have h1 : ldq_count [] = 0 := by decide
  have h2 : lsq_count [] = 0 := by decide
  refine ⟨h2, h1, ?_⟩
  unfold guess_quoting_style americanPercentage
  rw [h1, h2]
  norm_num
  decide

/-- C3 (amended): with zero qualifying captures of both kinds the classifier
returns `british`. -/
theorem c3_zero_captures_british (s : List Char) (h1 : ldq_count s = 0)
    (h2 : lsq_count s = 0) : guess_quoting_style s = "british" := by
  unfold guess_quoting_style americanPercentage
  rw [h1, h2]
  norm_num

/-- Witness for the amended C3 at a concrete quote-free document. -/
theorem c3_zero_captures_british_witness :
    guess_quoting_style ("<p>hello</p>".toList) = "british" :=
  c3_zero_captures_british _ (by decide) (by decide)

/-- C4: with at least one qualifying capture, the classifier returns
`american` when the double-quote-first percentage is at least 80, `british`
when it is at most 20, and `unsure` otherwise. -/
theorem c4_threshold (s : List Char) (h : 0 < ldq_count s + lsq_count s) :
    guess_quoting_style s =
      (if (100 * ldq_count s : ℚ) / ((ldq_count s : ℚ) + (lsq_count s : ℚ)) ≥ 80 then
        "american"
      else if (100 * ldq_count s : ℚ) / ((ldq_count s : ℚ) + (lsq_count s : ℚ)) ≤ 20 then
        "british"
      else "unsure") := by
  unfold guess_quoting_style americanPercentage
  have hne : ¬(ldq_count s + lsq_count s = 0) := by omega
  rw [if_neg hne]
  have h1 : (ldq_count s : ℚ) / ((ldq_count s : ℚ) + (lsq_count s : ℚ)) * 100 =
      100 * ldq_count s / ((ldq_count s : ℚ) + (lsq_count s : ℚ)) := by
    ring
  rw [h1]
  refine if_congr Iff.rfl rfl (if_congr ?_ rfl rfl)
  constructor <;> intro hx <;> linarith

/-- Witness for C4 at a document with one double-quote-first capture. -/
theorem c4_threshold_witness : guess_quoting_style ("<p>“x".toList) = "american" := by
  have h := c4_threshold ("<p>“x".toList) (by decide)
  have ha : ldq_count ("<p>“x".toList) = 1 := by decide
  have hb : lsq_count ("<p>“x".toList) = 0 := by decide
  rw [h, ha, hb]
  norm_num

/-! ## C5: the round-trip sample -/

/-- C5 counterexample to the claim as stated: on the bare sample string the
final em-dash-adjacent apostrophe is not converted, because the rules of
lines 189–190 require it to be followed by whitespace or `</`, and the string
ends right after it. -/
theorem c5_counterexample :
    convert_british_to_american ("“Well,” said Mrs. Bennet, ‘I declare—’".toList) ≠
      "‘Well,’ said Mrs. Bennet, “I declare—”".toList := by
  decide

/-- C5 (amended): with the sample followed by a closing tag — so that the
em-dash-adjacent apostrophe is in the context the rule requires — the
conversion produces exactly the expected American-style text. -/
theorem c5_round_trip :
    convert_british_to_american ("“Well,” said Mrs. Bennet, ‘I declare—’</p>".toList) =
      "‘Well,’ said Mrs. Bennet, “I declare—”</p>".toList := by
  decide

/-! ## Toolbox about `pfxB` and `occursB` -/

lemma pfxB_nil_left (s : List Char) : pfxB [] s = true := by
  cases s <;> rfl

lemma pfxB_of_append (p t : List Char) : pfxB p (p ++ t) = true := by
  induction p with
  | nil => exact pfxB_nil_left t
  | cons a p ih => simp [pfxB, ih]

lemma pfxB_split (p : List Char) : ∀ s, pfxB p s = true → ∃ t, s = p ++ t := by
  induction p with
  | nil => intro s _; exact ⟨s, rfl⟩
  | cons a p ih =>
    intro s h
    cases s with
    | nil => exact absurd h (by simp [pfxB])
    | cons b s' =>
      simp only [pfxB, Bool.and_eq_true, beq_iff_eq] at h
      obtain ⟨rfl, h2⟩ := h
      obtain ⟨t, rfl⟩ := ih s' h2
      exact ⟨t, rfl⟩

lemma pfxB_append_ext (u : List Char) : ∀ (r X : List Char), pfxB u r = true →
    pfxB u (r ++ X) = true := by
  induction u with
  | nil => intro r X _; exact pfxB_nil_left _
  | cons a u ih =>
    intro r X h
    cases r with
    | nil => exact absurd h (by simp [pfxB])
    | cons b r' =>
      simp only [pfxB, Bool.and_eq_true] at h ⊢
      exact ⟨h.1, ih r' X h.2⟩

lemma pfxB_mem (p : List Char) : ∀ s, pfxB p s = true → ∀ c ∈ p, c ∈ s := by
  induction p with
  | nil => intro s _ c hc; exact absurd hc (List.not_mem_nil c)
  | cons a p ih =>
    intro s h c hc
    cases s with
    | nil => exact absurd h (by simp [pfxB])
    | cons b s' =>
      simp only [pfxB, Bool.and_eq_true, beq_iff_eq] at h
      obtain ⟨rfl, h2⟩ := h
      rcases List.mem_cons.mp hc with rfl | hc'
      · exact List.mem_cons_self _ _
      · exact List.mem_cons_of_mem _ (ih s' h2 c hc')

lemma pfxB_trans_pre (a b : List Char) : ∀ s, pfxB (a ++ b) s = true → pfxB a s = true := by
  induction a with
  | nil => intro s _; exact pfxB_nil_left s
  | cons x a ih =>
    intro s h
    cases s with
    | nil => exact absurd h (by simp [pfxB])
    | cons y s' =>
      simp only [List.cons_append, pfxB, Bool.and_eq_true] at h ⊢
      exact ⟨h.1, ih s' h.2⟩

lemma pfxB_append_cases (P : List Char) : ∀ (A v : List Char), pfxB P (A ++ v) = true →
    pfxB P A = true ∨ pfxB A P = true := by
  induction P with
  | nil => intro A v _; exact Or.inl (pfxB_nil_left A)
  | cons p P ih =>
    intro A v h
    cases A with
    | nil => exact Or.inr (pfxB_nil_left _)
    | cons a A' =>
      simp only [List.cons_append, pfxB, Bool.and_eq_true] at h ⊢
      rcases ih A' v h.2 with h' | h'
      · exact Or.inl ⟨h.1, h'⟩
      · exact Or.inr ⟨by rw [beq_iff_eq] at h ⊢; exact h.1.symm, h'⟩

lemma pfxB_append_chop (u : List Char) : ∀ (P X : List Char), pfxB P (u ++ X) = true →
    u.length < P.length → pfxB (P.drop u.length) X = true := by
  induction u with
  | nil => intro P X h _; exact h
  | cons a u' ih =>
    intro P X h hl
    cases P with
    | nil => simp at hl
    | cons p P' =>
      simp only [List.cons_append, pfxB, Bool.and_eq_true] at h
      simp only [List.length_cons, List.drop_succ_cons]
      exact ih P' X h.2 (by simpa using hl)

lemma occursB_of_pfxB (p : List Char) : ∀ s, pfxB p s = true → occursB p s = true := by
  intro s h
  cases s with
  | nil =>
    cases p with
    | nil => rfl
    | cons a p' => exact absurd h (by simp [pfxB])
  | cons c cs => simp [occursB, h]

lemma occursB_append_r (p u v : List Char) (h : occursB p v = true) :
    occursB p (u ++ v) = true := by
  induction u with
  | nil => exact h
  | cons a u' ih => simp [occursB, ih]

lemma occursB_nil_pat (v : List Char) : occursB [] v = true := by
  cases v with
  | nil => rfl
  | cons c cs => simp [occursB, pfxB_nil_left]

lemma occursB_append_l (p : List Char) : ∀ (u v : List Char), occursB p u = true →
    occursB p (u ++ v) = true := by
  intro u v h
  induction u with
  | nil =>
    simp only [occursB, List.isEmpty_iff] at h
    subst h
    exact occursB_nil_pat _
  | cons a u' ih =>
    simp only [occursB, Bool.or_eq_true] at h ⊢
    rcases h with h | h
    · exact Or.inl (pfxB_append_ext p _ v h)
    · exact Or.inr (by simpa [occursB] using ih h)

lemma occursB_of_parts (p u v : List Char) : occursB p (u ++ p ++ v) = true := by
  rw [List.append_assoc]
  exact occursB_append_r p u _ (occursB_of_pfxB p _ (pfxB_of_append p v))

lemma occursB_split (p : List Char) : ∀ s, occursB p s = true → ∃ u v, s = u ++ p ++ v := by
  intro s
  induction s with
  | nil =>
    intro h
    simp only [occursB, List.isEmpty_iff] at h
    exact ⟨[], [], by simp [h]⟩
  | cons c cs ih =>
    intro h
    simp only [occursB, Bool.or_eq_true] at h
    rcases h with h | h
    · obtain ⟨t, ht⟩ := pfxB_split p _ h
      exact ⟨[], t, by simp [ht]⟩
    · obtain ⟨u, v, huv⟩ := ih h
      exact ⟨c :: u, v, by simp [huv]⟩

lemma occursB_mem (p s : List Char) (h : occursB p s = true) : ∀ c ∈ p, c ∈ s := by
  obtain ⟨u, v, rfl⟩ := occursB_split p s h
  intro c hc
  simp [List.mem_append, hc]

lemma occursB_false_tail (p : List Char) (c : Char) (cs : List Char)
    (h : occursB p (c :: cs) = false) : occursB p cs = false := by
  simp only [occursB, Bool.or_eq_false_iff] at h
  exact h.2

lemma occursB_false_drop (p : List Char) : ∀ (n : Nat) (s : List Char),
    occursB p s = false → occursB p (s.drop n) = false := by
  intro n
  induction n with
  | zero => intro s h; exact h
  | succ k ih =>
    intro s h
    cases s with
    | nil => exact h
    | cons c cs => exact ih cs (occursB_false_tail p c cs h)

lemma occursB_append_disjoint (p : List Char) (hp : p ≠ []) :
    ∀ (r X : List Char), (∀ a ∈ r, a ∉ p) → occursB p (r ++ X) = occursB p X := by
  intro r
  induction r with
  | nil => intro X _; rfl
  | cons a r' ih =>
    intro X hd
    have hpf : pfxB p (a :: (r' ++ X)) = false := by
      cases p with
      | nil => exact absurd rfl hp
      | cons p0 p' =>
        simp only [pfxB, Bool.and_eq_false_iff]
        left
        simp only [beq_eq_false_iff_ne, ne_eq]
        intro heq
        exact hd a (List.mem_cons_self a r') (heq ▸ List.mem_cons_self p0 p')
    have hdef : occursB p ((a :: r') ++ X) =
        (pfxB p (a :: (r' ++ X)) || occursB p (r' ++ X)) := rfl
    rw [hdef, hpf, Bool.false_or]
    exact ih X (fun b hb => hd b (List.mem_cons_of_mem a hb))

lemma occursB_singleton_false (a : Char) (s : List Char) (h : a ∉ s) :
    occursB [a] s = false := by
  by_contra hc
  have hc' : occursB [a] s = true := by simpa using hc
  exact h (occursB_mem [a] s hc' a (List.mem_cons_self a []))

/-! ## C9: inputs with no quote glyphs and no placeholder tokens are fixed -/

lemma scanG_id (m : List Char → Option (List Char × List Char)) :
    ∀ (fuel : Nat) (s : List Char), (∀ u v, s = u ++ v → m v = none) →
      scanG m fuel s = s := by
  intro fuel
  induction fuel with
  | zero => intro s _; cases s <;> rfl
  | succ f ih =>
    intro s h
    cases s with
    | nil => rfl
    | cons c cs =>
      have h0 : m (c :: cs) = none := h [] (c :: cs) rfl
      show (match m (c :: cs) with
        | some (rep, rest) => rep ++ scanG m f rest
        | none => c :: scanG m f cs) = c :: cs
      rw [h0]
      exact congrArg (c :: ·) (ih cs (fun u v hu => h (c :: u) v (by simp [hu])))

lemma occursB_of_sfx_pfxB (P s u v : List Char) (hs : s = u ++ v)
    (h : pfxB P v = true) : occursB P s = true := by
  subst hs
  exact occursB_append_r P u v (occursB_of_pfxB P v h)

lemma subLit_id (P r s : List Char) (h : occursB P s = false) : runScan (mLit P r) s = s := by
  refine scanG_id _ _ s (fun u v hu => ?_)
  cases hpf : pfxB P v with
  | false => simp [mLit, hpf]
  | true => exact absurd (occursB_of_sfx_pfxB P s u v hu hpf) (by rw [h]; simp)

lemma scan186_id (s : List Char) (h : occursB rdqP s = false) : runScan m186 s = s := by
  refine scanG_id _ _ s (fun u v hu => ?_)
  cases hpf : pfxB patRdqApos v with
  | false => simp [m186, hpf]
  | true =>
    exact absurd (occursB_of_sfx_pfxB rdqP s u v hu (pfxB_trans_pre rdqP _ v hpf))
      (by rw [h]; simp)

lemma scan187_id (s : List Char) (h : occursB rdqP s = false) : runScan m187 s = s := by
  refine scanG_id _ _ s (fun u v hu => ?_)
  cases hpf : pfxB (patRdqApos ++ ['<', '/']) v with
  | false => simp [m187, mLit, hpf]
  | true =>
    have : pfxB rdqP v = true := by
      have h2 := pfxB_trans_pre patRdqApos ['<', '/'] v hpf
      exact pfxB_trans_pre rdqP [wj, thinsp, rsq] v h2
    exact absurd (occursB_of_sfx_pfxB rdqP s u v hu this) (by rw [h]; simp)

lemma scan188_id (s : List Char) (h : rsq ∉ s) : runScan m188 s = s := by
  refine scanG_id _ _ s (fun u v hu => ?_)
  cases v with
  | nil => rfl
  | cons p tail =>
    cases tail with
    | nil => rfl
    | cons q rest =>
      show (if punct188.contains p && q == rsq then some (p :: rsqP, rest) else none) = none
      rw [if_neg]
      intro hc
      simp only [Bool.and_eq_true, beq_iff_eq] at hc
      subst hu
      exact h (by simp [hc.2])

lemma scan189_id (s : List Char) (h : rsq ∉ s) : runScan m189 s = s := by
  refine scanG_id _ _ s (fun u v hu => ?_)
  cases v with
  | nil => rfl
  | cons d tail =>
    cases tail with
    | nil => rfl
    | cons q rest =>
      simp only [m189]
      rw [if_neg]
      intro hc
      simp only [Bool.and_eq_true, beq_iff_eq] at hc
      subst hu
      exact h (by simp [hc.2])

lemma scan190_id (s : List Char) (h : rsq ∉ s) : runScan m190 s = s := by
  refine scanG_id _ _ s (fun u v hu => ?_)
  cases hpf : pfxB [emDash, rsq, '<', '/'] v with
  | false => simp [m190, mLit, hpf]
  | true =>
    exfalso
    have : rsq ∈ v := pfxB_mem _ v hpf rsq (by simp)
    subst hu
    exact h (by simp [this])

lemma scan191_id (s : List Char) (h : rsq ∉ s) : runScan m191 s = s := by
  refine scanG_id _ _ s (fun u v hu => ?_)
  cases v with
  | nil => rfl
  | cons a t1 =>
    cases t1 with
    | nil => rfl
    | cons q t2 =>
      cases t2 with
      | nil => rfl
      | cons b rest =>
        show (if lowerAZ a && q == rsq && lowerAZ b then some (a :: apP ++ [b], rest)
          else none) = none
        rw [if_neg]
        intro hc
        simp only [Bool.and_eq_true, beq_iff_eq] at hc
        subst hu
        exact h (by simp [hc.1.2])

lemma scan192_id (s : List Char) (h : rsq ∉ s) : runScan m192 s = s := by
  refine scanG_id _ _ s (fun u v hu => ?_)
  cases v with
  | nil => rfl
  | cons c cs =>
    simp only [m192]
    split_ifs with hws
    · cases hdr : List.drop (List.takeWhile pyWs cs).length cs with
      | nil => rfl
      | cons q t2 =>
        cases t2 with
        | nil => rfl
        | cons b rest =>
          show (if (q == rsq && lowerAZ b) = true then
            some (c :: List.takeWhile pyWs cs ++ apP ++ [b], rest) else none) = none
          rw [if_neg]
          intro hc
          simp only [Bool.and_eq_true, beq_iff_eq] at hc
          have hq : q ∈ cs := by
            have hmem : q ∈ List.drop (List.takeWhile pyWs cs).length cs := by
              rw [hdr]
              simp
            exact List.drop_subset _ cs hmem
          subst hu
          rw [hc.1] at hq
          exact h (by simp [hq])
    · rfl

lemma scan200_id (s : List Char) (h : rsq ∉ s) : runScan m200 s = s := by
  refine scanG_id _ _ s (fun u v hu => ?_)
  cases hpf : pfxB [rsq, hairsp, rsq] v with
  | false => simp [m200, mLit, hpf]
  | true =>
    exfalso
    have : rsq ∈ v := pfxB_mem _ v hpf rsq (by simp)
    subst hu
    exact h (by simp [this])

lemma scan201_id (s : List Char) (h : ldq ∉ s) : runScan m201 s = s := by
  refine scanG_id _ _ s (fun u v hu => ?_)
  cases v with
  | nil => rfl
  | cons q cs =>
    simp only [m201]
    rw [if_neg]
    intro hc
    rw [beq_iff_eq] at hc
    subst hu
    exact h (by simp [hc])

lemma scan202_id (s : List Char) (h : ldq ∉ s) : runScan m202 s = s := by
  refine scanG_id _ _ s (fun u v hu => ?_)
  cases v with
  | nil => rfl
  | cons q cs =>
    simp only [m202]
    rw [if_neg]
    intro hc
    rw [beq_iff_eq] at hc
    subst hu
    exact h (by simp [hc])

/-- C9: an input containing none of the four curly quote glyphs and none of
the five placeholder tokens is returned unchanged by the conversion. -/
theorem c9_quote_free_unchanged (x : List Char)
    (h1 : ldq ∉ x) (h2 : rdq ∉ x) (h3 : lsq ∉ x) (h4 : rsq ∉ x)
    (h5 : ∀ p ∈ placeholders, occursB p x = false) :
    convert_british_to_american x = x := by
  have hldqP : occursB ldqP x = false := h5 ldqP (by simp [placeholders])
  have hrdqP : occursB rdqP x = false := h5 rdqP (by simp [placeholders])
  have hlsqP : occursB lsqP x = false := h5 lsqP (by simp [placeholders])
  have hrsqP : occursB rsqP x = false := h5 rsqP (by simp [placeholders])
  have hapP : occursB apP x = false := h5 apP (by simp [placeholders])
  unfold convert_british_to_american
  dsimp only
  rw [subLit_id [ldq] ldqP x (occursB_singleton_false ldq x h1)]
  rw [subLit_id [rdq] rdqP x (occursB_singleton_false rdq x h2)]
  rw [subLit_id [lsq] lsqP x (occursB_singleton_false lsq x h3)]
  rw [scan186_id x hrdqP, scan187_id x hrdqP]
  rw [scan188_id x h4, scan189_id x h4, scan190_id x h4, scan191_id x h4, scan192_id x h4]
  rw [subLit_id ldqP [lsq] x hldqP]
  rw [subLit_id rdqP [rsq] x hrdqP]
  rw [subLit_id lsqP [ldq] x hlsqP]
  rw [subLit_id rsqP [rdq] x hrsqP]
  rw [subLit_id apP [rsq] x hapP]
  rw [scan200_id x h4]
  rw [scan201_id x h1, scan202_id x h1]

/-- Witness for C9 at a concrete plain-text input. -/
theorem c9_quote_free_unchanged_witness :
    convert_british_to_american ("<p>plain text stays.</p>".toList) =
      "<p>plain text stays.</p>".toList :=
  c9_quote_free_unchanged _ (by decide) (by decide) (by decide) (by decide)
    (by intro p hp; fin_cases hp <;> decide)

/-! ## C2: no placeholder token survives the conversion -/

lemma mLit_some_inv (P r v rep rest : List Char) (hm : mLit P r v = some (rep, rest)) :
    rep = r ∧ rest = v.drop P.length ∧ pfxB P v = true := by
  unfold mLit at hm
  by_cases hpf : pfxB P v = true
  · rw [if_pos hpf] at hm
    have heq := Option.some.inj hm
    rw [Prod.mk.injEq] at heq
    exact ⟨heq.1.symm, heq.2.symm, hpf⟩
  · rw [if_neg hpf] at hm
    exact Option.noConfusion hm

lemma scanG_cons_eq (m : List Char → Option (List Char × List Char)) (f : Nat)
    (c : Char) (cs : List Char) :
    scanG m (f + 1) (c :: cs) =
      (match m (c :: cs) with
      | some (rep, rest) => rep ++ scanG m f rest
      | none => c :: scanG m f cs) := rfl

lemma subLit_pfx (P r : List Char) (hr : r ≠ []) :
    ∀ (fuel : Nat) (s u : List Char), u ≠ [] → (∀ a ∈ r, a ∉ u) →
      pfxB u (scanG (mLit P r) fuel s) = true → pfxB u s = true := by
  intro fuel
  induction fuel with
  | zero =>
    intro s u _ _ h
    cases s with
    | nil => exact h
    | cons c cs => exact h
  | succ f ih =>
    intro s u hu hd h
    cases s with
    | nil => exact h
    | cons c cs =>
      rw [scanG_cons_eq] at h
      cases hm : mLit P r (c :: cs) with
      | some pr =>
        rw [hm] at h
        obtain ⟨rep, rest⟩ := pr
        obtain ⟨hrep, -, -⟩ := mLit_some_inv P r _ rep rest hm
        have h2 : pfxB u (rep ++ scanG (mLit P r) f rest) = true := h
        rw [hrep] at h2
        exfalso
        cases r with
        | nil => exact hr rfl
        | cons a r2 =>
          cases u with
          | nil => exact hu rfl
          | cons b u2 =>
            simp only [List.cons_append, pfxB, Bool.and_eq_true, beq_iff_eq] at h2
            exact hd a (List.mem_cons_self a r2) (h2.1 ▸ List.mem_cons_self b u2)
      | none =>
        rw [hm] at h
        cases u with
        | nil => exact absurd rfl hu
        | cons b u2 =>
          simp only [pfxB, Bool.and_eq_true] at h ⊢
          refine ⟨h.1, ?_⟩
          by_cases hu2 : u2 = []
          · subst hu2
            exact pfxB_nil_left cs
          · exact ih cs u2 hu2 (fun a ha hax => hd a ha (List.mem_cons_of_mem b hax)) h.2

lemma mLit_none_iff (P r v : List Char) : mLit P r v = none ↔ pfxB P v = false := by
  unfold mLit
  split_ifs with hpf
  · simp [hpf]
  · simp at hpf
    simp [hpf]

lemma subLit_clears (P r : List Char) (hP : P ≠ []) (hr : r ≠ [])
    (hd : ∀ a ∈ r, a ∉ P) :
    ∀ (fuel : Nat) (s : List Char), s.length ≤ fuel →
      occursB P (scanG (mLit P r) fuel s) = false := by
  intro fuel
  induction fuel with
  | zero =>
    intro s hs
    have hnil : s = [] := by
      cases s with
      | nil => rfl
      | cons c cs => simp at hs
    subst hnil
    simp [scanG, occursB, List.isEmpty_iff, hP]
  | succ f ih =>
    intro s hs
    cases s with
    | nil => simp [scanG, occursB, List.isEmpty_iff, hP]
    | cons c cs =>
      rw [scanG_cons_eq]
      cases hm : mLit P r (c :: cs) with
      | some pr =>
        obtain ⟨rep, rest⟩ := pr
        obtain ⟨hrep, hrest, -⟩ := mLit_some_inv P r _ rep rest hm
        show occursB P (rep ++ scanG (mLit P r) f rest) = false
        rw [hrep, hrest, occursB_append_disjoint P hP r _ hd]
        have hP1 : 1 ≤ P.length := by
          cases P with
          | nil => exact absurd rfl hP
          | cons _ _ => simp
        have hlen : ((c :: cs).drop P.length).length ≤ f := by
          rw [List.length_drop]
          simp only [List.length_cons] at hs ⊢
          omega
        exact ih _ hlen
      | none =>
        have hpfs : pfxB P (c :: cs) = false := (mLit_none_iff P r _).mp hm
        have htl : occursB P (scanG (mLit P r) f cs) = false := by
          refine ih cs ?_
          simp only [List.length_cons] at hs
          omega
        simp only [occursB, Bool.or_eq_false_iff]
        refine ⟨?_, htl⟩
        by_contra hc
        have hc2 : pfxB P (c :: scanG (mLit P r) f cs) = true := by simpa using hc
        cases P with
        | nil => exact hP rfl
        | cons p0 P2 =>
          simp only [pfxB, Bool.and_eq_true, beq_iff_eq] at hc2
          obtain ⟨rfl, h2⟩ := hc2
          have hpfx : pfxB P2 cs = true := by
            by_cases hP2 : P2 = []
            · subst hP2
              exact pfxB_nil_left cs
            · refine subLit_pfx (p0 :: P2) r hr f cs P2 hP2 ?_ h2
              intro a ha hax
              exact hd a ha (List.mem_cons_of_mem p0 hax)
          rw [show pfxB (p0 :: P2) (p0 :: cs) = ((p0 == p0) && pfxB P2 cs) from rfl,
            beq_self_eq_true, Bool.true_and, hpfx] at hpfs
          exact Bool.noConfusion hpfs

lemma subLit_keeps (P r Q : List Char) (hQ : Q ≠ []) (hr : r ≠ [])
    (hd : ∀ a ∈ r, a ∉ Q) :
    ∀ (fuel : Nat) (s : List Char), occursB Q s = false →
      occursB Q (scanG (mLit P r) fuel s) = false := by
  intro fuel
  induction fuel with
  | zero =>
    intro s h
    cases s with
    | nil => exact h
    | cons c cs => exact h
  | succ f ih =>
    intro s h
    cases s with
    | nil => exact h
    | cons c cs =>
      have hor := (Bool.or_eq_false_iff).mp (by simpa [occursB] using h)
      obtain ⟨hpfs, htl⟩ := hor
      rw [scanG_cons_eq]
      cases hm : mLit P r (c :: cs) with
      | some pr =>
        obtain ⟨rep, rest⟩ := pr
        obtain ⟨hrep, hrest, -⟩ := mLit_some_inv P r _ rep rest hm
        show occursB Q (rep ++ scanG (mLit P r) f rest) = false
        rw [hrep, hrest, occursB_append_disjoint Q hQ r _ hd]
        exact ih _ (occursB_false_drop Q P.length (c :: cs) h)
      | none =>
        have htl2 : occursB Q (scanG (mLit P r) f cs) = false := ih cs htl
        simp only [occursB, Bool.or_eq_false_iff]
        refine ⟨?_, htl2⟩
        by_contra hc
        have hc2 : pfxB Q (c :: scanG (mLit P r) f cs) = true := by simpa using hc
        cases Q with
        | nil => exact hQ rfl
        | cons q0 Q2 =>
          simp only [pfxB, Bool.and_eq_true, beq_iff_eq] at hc2
          obtain ⟨rfl, h2⟩ := hc2
          have hpfx : pfxB Q2 cs = true := by
            by_cases hQ2 : Q2 = []
            · subst hQ2
              exact pfxB_nil_left cs
            · refine subLit_pfx P r hr f cs Q2 hQ2 ?_ h2
              intro a ha hax
              exact hd a ha (List.mem_cons_of_mem q0 hax)
          rw [show pfxB (q0 :: Q2) (q0 :: cs) = ((q0 == q0) && pfxB Q2 cs) from rfl,
            beq_self_eq_true, Bool.true_and, hpfx] at hpfs
          exact Bool.noConfusion hpfs

lemma subLit_clears_run (P r : List Char) (hP : P ≠ []) (hr : r ≠ [])
    (hd : ∀ a ∈ r, a ∉ P) (s : List Char) :
    occursB P (runScan (mLit P r) s) = false :=
  subLit_clears P r hP hr hd s.length s (le_refl _)

lemma subLit_keeps_run (P r Q : List Char) (hQ : Q ≠ []) (hr : r ≠ [])
    (hd : ∀ a ∈ r, a ∉ Q) (s : List Char) (h : occursB Q s = false) :
    occursB Q (runScan (mLit P r) s) = false :=
  subLit_keeps P r Q hQ hr hd s.length s h

lemma flipQ_refl : ∀ s, FlipQ s s := by
  intro s
  induction s with
  | nil => exact FlipQ.nil
  | cons c cs ih => exact FlipQ.keep c ih

lemma flipQ_append {a b c d : List Char} (h1 : FlipQ a b) (h2 : FlipQ c d) :
    FlipQ (a ++ c) (b ++ d) := by
  induction h1 with
  | nil => exact h2
  | keep x _ ih => exact FlipQ.keep x ih
  | swap _ ih => exact FlipQ.swap ih

lemma find201_shape : ∀ (cs g : List Char) (c2 : Char) (rest : List Char),
    find201 cs = some (g, c2, rest) → cs = g ++ rsq :: c2 :: rest := by
  intro cs
  induction cs with
  | nil => intro g c2 rest h; simp [find201] at h
  | cons c1 tail ih =>
    intro g c2 rest h
    simp only [find201] at h
    split at h
    · exact absurd h (by simp)
    · split at h
      · split at h
        · rename_i hq
          injection h with h'
          rw [Prod.mk.injEq] at h'
          obtain ⟨hg, h2⟩ := h'
          rw [Prod.mk.injEq] at h2
          obtain ⟨hc2, hrest⟩ := h2
          subst hg hc2 hrest
          simp only [Bool.and_eq_true, beq_iff_eq] at hq
          simp [hq.1.2]
        · split at h
          · rename_i g' cc rest2 hf
            injection h with h'
            rw [Prod.mk.injEq] at h'
            obtain ⟨hg, h2⟩ := h'
            rw [Prod.mk.injEq] at h2
            obtain ⟨hc2, hrest⟩ := h2
            subst hc2 hrest
            have hT := ih g' cc rest2 hf
            rw [← hg, hT]
            simp
          · exact absurd h (by simp)
      · split at h
        · rename_i g' cc rest2 hf
          injection h with h'
          rw [Prod.mk.injEq] at h'
          obtain ⟨hg, h2⟩ := h'
          rw [Prod.mk.injEq] at h2
          obtain ⟨hc2, hrest⟩ := h2
          subst hc2 hrest
          have hT := ih g' cc rest2 hf
          rw [← hg, hT]
          simp
        · exact absurd h (by simp)

lemma find202_shape : ∀ (cs g : List Char) (c2 : Char) (rest : List Char),
    find202 cs = some (g, c2, rest) → cs = g ++ rsq :: c2 :: rest := by
  intro cs
  induction cs with
  | nil => intro g c2 rest h; simp [find202] at h
  | cons c1 tail ih =>
    intro g c2 rest h
    simp only [find202] at h
    split at h
    · exact absurd h (by simp)
    · split at h
      · split at h
        · rename_i hq
          injection h with h'
          rw [Prod.mk.injEq] at h'
          obtain ⟨hg, h2⟩ := h'
          rw [Prod.mk.injEq] at h2
          obtain ⟨hc2, hrest⟩ := h2
          subst hg hc2 hrest
          simp only [Bool.and_eq_true, beq_iff_eq] at hq
          simp [hq.1]
        · split at h
          · rename_i g' cc rest2 hf
            injection h with h'
            rw [Prod.mk.injEq] at h'
            obtain ⟨hg, h2⟩ := h'
            rw [Prod.mk.injEq] at h2
            obtain ⟨hc2, hrest⟩ := h2
            subst hc2 hrest
            have hT := ih g' cc rest2 hf
            rw [← hg, hT]
            simp
          · exact absurd h (by simp)
      · split at h
        · rename_i g' cc rest2 hf
          injection h with h'
          rw [Prod.mk.injEq] at h'
          obtain ⟨hg, h2⟩ := h'
          rw [Prod.mk.injEq] at h2
          obtain ⟨hc2, hrest⟩ := h2
          subst hc2 hrest
          have hT := ih g' cc rest2 hf
          rw [← hg, hT]
          simp
        · exact absurd h (by simp)

lemma m201_some_inv (s rep rest : List Char) (h : m201 s = some (rep, rest)) :
    ∃ g c2, s = ldq :: (g ++ rsq :: c2 :: rest) ∧ rep = ldq :: g ++ rdq :: [c2] := by
  match s with
  | [] => exact absurd h (by simp [m201])
  | q :: cs =>
    simp only [m201] at h
    split at h
    · split at h
      · rename_i hq hsc g c2 r hf
        injection h with h'
        rw [Prod.mk.injEq] at h'
        obtain ⟨hrep, hrest⟩ := h'
        refine ⟨g, c2, ?_, hrep.symm⟩
        have hT := find201_shape cs g c2 r hf
        simp only [beq_iff_eq] at hq
        rw [hT, hq, hrest]
      · exact absurd h (by simp)
    · exact absurd h (by simp)

lemma m202_some_inv (s rep rest : List Char) (h : m202 s = some (rep, rest)) :
    ∃ g c2, s = ldq :: (g ++ rsq :: c2 :: rest) ∧ rep = ldq :: g ++ rdq :: [c2] := by
  match s with
  | [] => exact absurd h (by simp [m202])
  | q :: cs =>
    simp only [m202] at h
    split at h
    · split at h
      · rename_i hq hsc g c2 r hf
        injection h with h'
        rw [Prod.mk.injEq] at h'
        obtain ⟨hrep, hrest⟩ := h'
        refine ⟨g, c2, ?_, hrep.symm⟩
        have hT := find202_shape cs g c2 r hf
        simp only [beq_iff_eq] at hq
        rw [hT, hq, hrest]
      · exact absurd h (by simp)
    · exact absurd h (by simp)

lemma flipQ_scan201 : ∀ (fuel : Nat) (s : List Char), FlipQ s (scanG m201 fuel s) := by
  intro fuel
  induction fuel with
  | zero =>
    intro s
    cases s with
    | nil => exact FlipQ.nil
    | cons c cs => exact flipQ_refl _
  | succ f ih =>
    intro s
    cases s with
    | nil => exact FlipQ.nil
    | cons c cs =>
      rw [scanG_cons_eq]
      cases hm : m201 (c :: cs) with
      | none => exact FlipQ.keep c (ih cs)
      | some pr =>
        obtain ⟨rep, rest⟩ := pr
        show FlipQ (c :: cs) (rep ++ scanG m201 f rest)
        obtain ⟨g, c2, hs, hrep⟩ := m201_some_inv (c :: cs) rep rest hm
        rw [hs, hrep]
        have hsplice : (ldq :: g ++ rdq :: [c2]) ++ scanG m201 f rest
            = ldq :: (g ++ rdq :: c2 :: scanG m201 f rest) := by simp
        rw [hsplice]
        exact FlipQ.keep ldq
          (flipQ_append (flipQ_refl g) (FlipQ.swap (FlipQ.keep c2 (ih rest))))

lemma flipQ_scan202 : ∀ (fuel : Nat) (s : List Char), FlipQ s (scanG m202 fuel s) := by
  intro fuel
  induction fuel with
  | zero =>
    intro s
    cases s with
    | nil => exact FlipQ.nil
    | cons c cs => exact flipQ_refl _
  | succ f ih =>
    intro s
    cases s with
    | nil => exact FlipQ.nil
    | cons c cs =>
      rw [scanG_cons_eq]
      cases hm : m202 (c :: cs) with
      | none => exact FlipQ.keep c (ih cs)
      | some pr =>
        obtain ⟨rep, rest⟩ := pr
        show FlipQ (c :: cs) (rep ++ scanG m202 f rest)
        obtain ⟨g, c2, hs, hrep⟩ := m202_some_inv (c :: cs) rep rest hm
        rw [hs, hrep]
        have hsplice : (ldq :: g ++ rdq :: [c2]) ++ scanG m202 f rest
            = ldq :: (g ++ rdq :: c2 :: scanG m202 f rest) := by simp
        rw [hsplice]
        exact FlipQ.keep ldq
          (flipQ_append (flipQ_refl g) (FlipQ.swap (FlipQ.keep c2 (ih rest))))

lemma flipQ_pfx : ∀ {s t : List Char}, FlipQ s t → ∀ p : List Char, rdq ∉ p →
    pfxB p t = true → pfxB p s = true := by
  intro s t h
  induction h with
  | nil => intro p hp hpf; exact hpf
  | keep c a ih =>
    intro p hp hpf
    match p with
    | [] => rfl
    | x :: xs =>
      simp only [pfxB, Bool.and_eq_true] at hpf ⊢
      exact ⟨hpf.1, ih xs (fun hm => hp (List.mem_cons_of_mem x hm)) hpf.2⟩
  | swap a ih =>
    intro p hp hpf
    match p with
    | [] => rfl
    | x :: xs =>
      simp only [pfxB, Bool.and_eq_true, beq_iff_eq] at hpf
      have hx : x = rdq := hpf.1
      have hmem : rdq ∈ x :: xs := by rw [hx]; exact List.mem_cons_self _ _
      exact absurd hmem hp

lemma flipQ_occursB : ∀ {s t : List Char}, FlipQ s t → ∀ p : List Char, rdq ∉ p →
    occursB p t = true → occursB p s = true := by
  intro s t h
  induction h with
  | nil => intro p hp ho; exact ho
  | keep c a ih =>
    intro p hp ho
    simp only [occursB, Bool.or_eq_true] at ho ⊢
    cases ho with
    | inl hpf => exact Or.inl (flipQ_pfx (FlipQ.keep c a) p hp hpf)
    | inr ho' => exact Or.inr (ih p hp ho')
  | swap a ih =>
    intro p hp ho
    simp only [occursB, Bool.or_eq_true] at ho ⊢
    cases ho with
    | inl hpf => exact Or.inl (flipQ_pfx (FlipQ.swap a) p hp hpf)
    | inr ho' => exact Or.inr (ih p hp ho')

lemma scan201_keeps (p s : List Char) (hp : rdq ∉ p) (h : occursB p s = false) :
    occursB p (runScan m201 s) = false := by
  simp only [runScan]
  cases ho : occursB p (scanG m201 s.length s) with
  | false => rfl
  | true =>
    have hT := flipQ_occursB (flipQ_scan201 s.length s) p hp ho
    rw [h] at hT
    exact Bool.noConfusion hT

lemma scan202_keeps (p s : List Char) (hp : rdq ∉ p) (h : occursB p s = false) :
    occursB p (runScan m202 s) = false := by
  simp only [runScan]
  cases ho : occursB p (scanG m202 s.length s) with
  | false => rfl
  | true =>
    have hT := flipQ_occursB (flipQ_scan202 s.length s) p hp ho
    rw [h] at hT
    exact Bool.noConfusion hT

/-- **C2.** Every internal placeholder token (`<ldq>`, `<rdq>`, `<lsq>`,
`<rsq>`, `<ap>`) introduced by the first phase of
`convert_british_to_american` is eliminated again before the function
returns: no placeholder occurs as a substring of the output, whatever the
input. Each placeholder is removed by its dedicated restoration pass
(lines 193–197), and every later pass only inserts curly-quote or space
characters, which cannot recreate an ASCII placeholder. -/
theorem c2_no_placeholder_leak (s p : List Char) (hp : p ∈ placeholders) :
    occursB p (convert_british_to_american s) = false := by
  have hm200 : m200 = mLit [rsq, hairsp, rsq] [rsq, hairsp, rdq] := funext (fun v => rfl)
  unfold convert_british_to_american
  dsimp only
  rw [hm200]
  simp only [placeholders, List.mem_cons, List.not_mem_nil, or_false] at hp
  rcases hp with h | h | h | h | h <;> subst h
  · apply scan202_keeps _ _ (by decide)
    apply scan201_keeps _ _ (by decide)
    apply subLit_keeps_run _ _ _ (by decide) (by decide) (by decide)
    apply subLit_keeps_run _ _ _ (by decide) (by decide) (by decide)
    apply subLit_keeps_run _ _ _ (by decide) (by decide) (by decide)
    apply subLit_keeps_run _ _ _ (by decide) (by decide) (by decide)
    apply subLit_keeps_run _ _ _ (by decide) (by decide) (by decide)
    exact subLit_clears_run _ _ (by decide) (by decide) (by decide) _
  · apply scan202_keeps _ _ (by decide)
    apply scan201_keeps _ _ (by decide)
    apply subLit_keeps_run _ _ _ (by decide) (by decide) (by decide)
    apply subLit_keeps_run _ _ _ (by decide) (by decide) (by decide)
    apply subLit_keeps_run _ _ _ (by decide) (by decide) (by decide)
    apply subLit_keeps_run _ _ _ (by decide) (by decide) (by decide)
    exact subLit_clears_run _ _ (by decide) (by decide) (by decide) _
  · apply scan202_keeps _ _ (by decide)
    apply scan201_keeps _ _ (by decide)
    apply subLit_keeps_run _ _ _ (by decide) (by decide) (by decide)
    apply subLit_keeps_run _ _ _ (by decide) (by decide) (by decide)
    apply subLit_keeps_run _ _ _ (by decide) (by decide) (by decide)
    exact subLit_clears_run _ _ (by decide) (by decide) (by decide) _
  · apply scan202_keeps _ _ (by decide)
    apply scan201_keeps _ _ (by decide)
    apply subLit_keeps_run _ _ _ (by decide) (by decide) (by decide)
    apply subLit_keeps_run _ _ _ (by decide) (by decide) (by decide)
    exact subLit_clears_run _ _ (by decide) (by decide) (by decide) _
  · apply scan202_keeps _ _ (by decide)
    apply scan201_keeps _ _ (by decide)
    apply subLit_keeps_run _ _ _ (by decide) (by decide) (by decide)
    exact subLit_clears_run _ _ (by decide) (by decide) (by decide) _

theorem c2_no_placeholder_leak_witness :
    rsqP ∈ placeholders ∧
      occursB rsqP (convert_british_to_american "“x”".toList) = false :=
  ⟨by decide, c2_no_placeholder_leak "“x”".toList rsqP (by decide)⟩

lemma optNoneSome {α : Type} {o : Option α} {x : α} {C : Prop} (h1 : o = none)
    (h2 : o = some x) : C := by
  rw [h1] at h2
  exact Option.noConfusion h2

lemma split3 (u W v C R : List Char) (h : u ++ (W ++ v) = C ++ R) :
    (C.length ≤ u.length ∧ R = u.drop C.length ++ (W ++ v)) ∨
    (∃ j, 0 < j ∧ j < W.length ∧ C = u ++ W.take j ∧ R = W.drop j ++ v) ∨
    (∃ t, C = u ++ (W ++ t)) := by
  by_cases h1 : C.length ≤ u.length
  · left
    refine ⟨h1, ?_⟩
    have hR : R = (C ++ R).drop C.length := (List.drop_left C R).symm
    rw [hR, ← h, List.drop_append_of_le_length h1]
  · push_neg at h1
    by_cases h2 : C.length < u.length + W.length
    · right; left
      have h3 := congrArg (fun l => List.take C.length l) h
      simp only at h3
      rw [List.take_append_eq_append_take, List.take_of_length_le (by omega),
        List.take_append_of_le_length (by omega), List.take_left] at h3
      have h4 := congrArg (fun l => List.drop C.length l) h
      simp only at h4
      rw [List.drop_append_eq_append_drop, List.drop_eq_nil_of_le (by omega),
        List.nil_append, List.drop_append_of_le_length (by omega), List.drop_left] at h4
      exact ⟨C.length - u.length, by omega, by omega, h3.symm, h4.symm⟩
    · right; right
      push_neg at h2
      have h3 := congrArg (fun l => List.take C.length l) h
      simp only at h3
      rw [List.take_append_eq_append_take, List.take_of_length_le (by omega),
        List.take_append_eq_append_take, List.take_of_length_le (by omega),
        List.take_left] at h3
      exact ⟨_, h3.symm⟩

lemma scanG_thru (m : List Char → Option (List Char × List Char)) (W : List Char)
    (hb : keepB m W) :
    ∀ (fuel k : Nat) (v : List Char), k < W.length →
      ∃ t, scanG m fuel (W.drop k ++ v) = W.drop k ++ t := by
  intro fuel
  induction fuel with
  | zero =>
    intro k v hk
    have hd := List.drop_eq_getElem_cons hk
    refine ⟨v, ?_⟩
    rw [hd]
    rfl
  | succ f ih =>
    intro k v hk
    have hd := List.drop_eq_getElem_cons hk
    rw [hd, List.cons_append, scanG_cons_eq]
    cases hm : m (W[k] :: (W.drop (k + 1) ++ v)) with
    | none =>
      by_cases hk1 : k + 1 < W.length
      · obtain ⟨t, ht⟩ := ih (k + 1) v hk1
        refine ⟨t, ?_⟩
        show W[k] :: scanG m f (W.drop (k + 1) ++ v) = W[k] :: W.drop (k + 1) ++ t
        rw [ht]
        rfl
      · have hnil : W.drop (k + 1) = [] := List.drop_eq_nil_of_le (by omega)
        refine ⟨scanG m f v, ?_⟩
        show W[k] :: scanG m f (W.drop (k + 1) ++ v) = W[k] :: W.drop (k + 1) ++ _
        rw [hnil]
        rfl
    | some pr =>
      obtain ⟨rep, rest⟩ := pr
      have hm' : m (W.drop k ++ v) = some (rep, rest) := by
        rw [hd, List.cons_append]; exact hm
      obtain ⟨t, ht⟩ := hb k hk v rep rest hm'
      refine ⟨t ++ scanG m f rest, ?_⟩
      show rep ++ scanG m f rest = W[k] :: W.drop (k + 1) ++ (t ++ scanG m f rest)
      rw [ht, hd]
      simp

lemma scanG_keepW (m : List Char → Option (List Char × List Char)) (W : List Char)
    (hb : keepB m W) (ha : keepA m W) (hW : 1 < W.length) :
    ∀ (fuel : Nat) (u v : List Char), (u ++ (W ++ v)).length ≤ fuel →
      occursB W (scanG m fuel (u ++ (W ++ v))) = true := by
  intro fuel
  induction fuel with
  | zero =>
    intro u v hlen
    exfalso
    simp only [List.length_append] at hlen
    omega
  | succ f ih =>
    intro u v hlen
    cases u with
    | nil =>
      rw [List.nil_append]
      have hd := List.drop_eq_getElem_cons (show 0 < W.length by omega)
      rw [List.drop_zero] at hd
      cases hm : m (W ++ v) with
      | none =>
        have hstep : scanG m (f + 1) (W ++ v) = W[0] :: scanG m f (W.drop 1 ++ v) := by
          conv_lhs => rw [hd]
          rw [List.cons_append, scanG_cons_eq]
          rw [hd, List.cons_append] at hm
          simp only [hm]
        rw [hstep]
        obtain ⟨t, ht⟩ := scanG_thru m W hb f 1 v hW
        rw [ht]
        have hshape : W[0] :: (W.drop 1 ++ t) = W ++ t := by
          rw [← List.cons_append, ← hd]
        rw [hshape]
        exact occursB_of_pfxB W (W ++ t) (pfxB_of_append W t)
      | some pr =>
        obtain ⟨rep, rest⟩ := pr
        have hm' : m (W.drop 0 ++ v) = some (rep, rest) := by
          rw [List.drop_zero]; exact hm
        have hstep : scanG m (f + 1) (W ++ v) = rep ++ scanG m f rest := by
          conv_lhs => rw [hd]
          rw [List.cons_append, scanG_cons_eq]
          rw [hd, List.cons_append] at hm
          simp only [hm]
        rw [hstep]
        obtain ⟨t, ht⟩ := hb 0 (by omega) v rep rest hm'
        rw [List.drop_zero] at ht
        rw [ht]
        apply occursB_of_pfxB
        rw [List.append_assoc]
        exact pfxB_of_append W _
    | cons u0 u' =>
      rw [List.cons_append, scanG_cons_eq]
      cases hm : m (u0 :: (u' ++ (W ++ v))) with
      | none =>
        show occursB W (u0 :: scanG m f (u' ++ (W ++ v))) = true
        have hrec := ih u' v (by
          simp only [List.length_append, List.length_cons] at hlen ⊢
          omega)
        simp only [occursB, Bool.or_eq_true]
        exact Or.inr hrec
      | some pr =>
        obtain ⟨rep, rest⟩ := pr
        show occursB W (rep ++ scanG m f rest) = true
        have hA := ha (u0 :: u') v rep rest (by simp)
          (by rw [List.cons_append]; exact hm)
        rcases hA with ⟨u2, hu2len, hrest⟩ | ⟨j, t, hj0, hjW, hrep, hrest⟩ | hocc
        · subst hrest
          have hrec := ih u2 v (by
            simp only [List.length_append, List.length_cons] at hlen hu2len ⊢
            omega)
          exact occursB_append_r W rep _ hrec
        · subst hrest hrep
          obtain ⟨t2, ht2⟩ := scanG_thru m W hb f j v hjW
          rw [ht2]
          have hshape : t ++ W.take j ++ (W.drop j ++ t2) = t ++ W ++ t2 := by
            have hmid : W.take j ++ (W.drop j ++ t2) = W ++ t2 := by
              rw [← List.append_assoc, List.take_append_drop]
            rw [List.append_assoc t, hmid, ← List.append_assoc]
          rw [hshape]
          exact occursB_of_parts W t t2
        · exact occursB_append_l W rep _ hocc

lemma keepW_of (m : List Char → Option (List Char × List Char)) (W : List Char)
    (hb : keepB m W) (ha : keepA m W) (hW : 1 < W.length) : keepW m W := by
  intro s hs
  obtain ⟨u, v, huv⟩ := occursB_split W s hs
  subst huv
  simp only [runScan]
  rw [List.append_assoc]
  exact scanG_keepW m W hb ha hW _ u v (le_refl _)

lemma keepB183 : keepB (mLit [ldq] ldqP) boysHats := by
  intro k hk v rep rest h
  rw [show boysHats.length = 14 from rfl] at hk
  interval_cases k <;> cases v <;> exact optNoneSome rfl h

lemma keepB184 : keepB (mLit [rdq] rdqP) boysHats := by
  intro k hk v rep rest h
  rw [show boysHats.length = 14 from rfl] at hk
  interval_cases k <;> cases v <;> exact optNoneSome rfl h

lemma keepB185 : keepB (mLit [lsq] lsqP) boysHats := by
  intro k hk v rep rest h
  rw [show boysHats.length = 14 from rfl] at hk
  interval_cases k <;> cases v <;> exact optNoneSome rfl h

lemma keepB186 : keepB m186 boysHats := by
  intro k hk v rep rest h
  rw [show boysHats.length = 14 from rfl] at hk
  interval_cases k <;> cases v <;> exact optNoneSome rfl h

lemma keepB187 : keepB m187 boysHats := by
  intro k hk v rep rest h
  rw [show boysHats.length = 14 from rfl] at hk
  interval_cases k <;> cases v <;> exact optNoneSome rfl h

lemma keepB188 : keepB m188 boysHats := by
  intro k hk v rep rest h
  rw [show boysHats.length = 14 from rfl] at hk
  interval_cases k <;> cases v <;> exact optNoneSome rfl h

lemma keepB189 : keepB m189 boysHats := by
  intro k hk v rep rest h
  rw [show boysHats.length = 14 from rfl] at hk
  interval_cases k <;> cases v <;> exact optNoneSome rfl h

lemma keepB190 : keepB m190 boysHats := by
  intro k hk v rep rest h
  rw [show boysHats.length = 14 from rfl] at hk
  interval_cases k <;> cases v <;> exact optNoneSome rfl h

lemma keepB191 : keepB m191 boysHats := by
  intro k hk v rep rest h
  rw [show boysHats.length = 14 from rfl] at hk
  interval_cases k
  · exact optNoneSome rfl h
  · exact optNoneSome rfl h
  · exact optNoneSome rfl h
  · exact optNoneSome rfl h
  · exact optNoneSome rfl h
  · exact optNoneSome rfl h
  · exact optNoneSome rfl h
  · exact optNoneSome rfl h
  · exact optNoneSome rfl h
  · exact optNoneSome rfl h
  · exact optNoneSome rfl h
  · exact optNoneSome rfl h
  · cases v with
    | nil => exact optNoneSome rfl h
    | cons x xs => exact optNoneSome rfl h
  · cases v with
    | nil => exact optNoneSome rfl h
    | cons x xs =>
      cases xs with
      | nil => exact optNoneSome rfl h
      | cons y ys =>
        have h2 : (if (lowerAZ 's' && x == rsq && lowerAZ y) = true then
            some ('s' :: apP ++ [y], ys) else none) = some (rep, rest) := h
        split at h2
        · injection h2 with h'
          rw [Prod.mk.injEq] at h'
          exact ⟨apP ++ [y], by rw [← h'.1]; rfl⟩
        · exact Option.noConfusion h2

lemma keepB192 : keepB m192 boysHats := by
  intro k hk v rep rest h
  rw [show boysHats.length = 14 from rfl] at hk
  interval_cases k <;> cases v <;> exact optNoneSome rfl h

lemma keepB193 : keepB (mLit ldqP [lsq]) boysHats := by
  intro k hk v rep rest h
  rw [show boysHats.length = 14 from rfl] at hk
  interval_cases k <;> cases v <;> exact optNoneSome rfl h

lemma keepB194 : keepB (mLit rdqP [rsq]) boysHats := by
  intro k hk v rep rest h
  rw [show boysHats.length = 14 from rfl] at hk
  interval_cases k <;> cases v <;> exact optNoneSome rfl h

lemma keepB195 : keepB (mLit lsqP [ldq]) boysHats := by
  intro k hk v rep rest h
  rw [show boysHats.length = 14 from rfl] at hk
  interval_cases k <;> cases v <;> exact optNoneSome rfl h

lemma keepB196 : keepB (mLit rsqP [rdq]) boysHats := by
  intro k hk v rep rest h
  rw [show boysHats.length = 14 from rfl] at hk
  interval_cases k <;> cases v <;> exact optNoneSome rfl h

lemma keepB197 : keepB (mLit apP [rsq]) boysHats := by
  intro k hk v rep rest h
  rw [show boysHats.length = 14 from rfl] at hk
  interval_cases k <;> cases v <;> exact optNoneSome rfl h

lemma keepB200 : keepB m200 boysHats := by
  intro k hk v rep rest h
  rw [show boysHats.length = 14 from rfl] at hk
  interval_cases k <;> cases v <;> exact optNoneSome rfl h

lemma keepB201 : keepB m201 boysHats := by
  intro k hk v rep rest h
  rw [show boysHats.length = 14 from rfl] at hk
  interval_cases k <;> cases v <;> exact optNoneSome rfl h

lemma keepB202 : keepB m202 boysHats := by
  intro k hk v rep rest h
  rw [show boysHats.length = 14 from rfl] at hk
  interval_cases k <;> cases v <;> exact optNoneSome rfl h

lemma keepA_of_avoid (m : List Char → Option (List Char × List Char))
    (w0 : Char) (W' : List Char)
    (hC : ∀ s rep rest, m s = some (rep, rest) →
      ∃ C, C ≠ [] ∧ s = C ++ rest ∧ w0 ∉ C) :
    keepA m (w0 :: W') := by
  intro u v rep rest hu hm
  obtain ⟨C, hCne, hsC, hw0⟩ := hC _ _ _ hm
  rcases split3 u (w0 :: W') v C rest hsC with
    ⟨hle, hR⟩ | ⟨j, hj0, hjW, hCj, hRj⟩ | ⟨t, hCt⟩
  · left
    refine ⟨u.drop C.length, ?_, hR⟩
    have h1 : 0 < C.length := List.length_pos.mpr hCne
    rw [List.length_drop]
    omega
  · exfalso
    apply hw0
    rw [hCj]
    apply List.mem_append_right
    cases j with
    | zero => omega
    | succ j' =>
      rw [List.take_succ_cons]
      exact List.mem_cons_self _ _
  · exfalso
    apply hw0
    rw [hCt]
    apply List.mem_append_right
    exact List.mem_append_left _ (List.mem_cons_self _ _)

lemma mLit_consumed (P r s rep rest : List Char) (h : mLit P r s = some (rep, rest)) :
    s = P ++ rest := by
  obtain ⟨hrep, hrest, hpfx⟩ := mLit_some_inv P r s rep rest h
  obtain ⟨t, ht⟩ := pfxB_split P s hpfx
  subst ht
  rw [hrest, List.drop_left]

lemma keepA_mLit (P r : List Char) (hne : P ≠ []) (hniP : 't' ∉ P) :
    keepA (mLit P r) boysHats := by
  have h := keepA_of_avoid (mLit P r) 't' ("he boys’ hats".toList)
    (fun s rep rest hm => ⟨P, hne, mLit_consumed P r s rep rest hm, hniP⟩)
  exact h

lemma keepA183 : keepA (mLit [ldq] ldqP) boysHats :=
  keepA_mLit _ _ (by decide) (by decide)

lemma keepA184 : keepA (mLit [rdq] rdqP) boysHats :=
  keepA_mLit _ _ (by decide) (by decide)

lemma keepA185 : keepA (mLit [lsq] lsqP) boysHats :=
  keepA_mLit _ _ (by decide) (by decide)

lemma keepA187 : keepA m187 boysHats := by
  have hm : m187 = mLit (patRdqApos ++ ['<', '/']) (rdqP ++ thinsp :: rsqP ++ ['<', '/']) :=
    funext (fun v => rfl)
  rw [hm]
  exact keepA_mLit _ _ (by decide) (by decide)

lemma keepA190 : keepA m190 boysHats := by
  have hm : m190 = mLit [emDash, rsq, '<', '/'] (emDash :: rsqP ++ ['<', '/']) :=
    funext (fun v => rfl)
  rw [hm]
  exact keepA_mLit _ _ (by decide) (by decide)

lemma keepA193 : keepA (mLit ldqP [lsq]) boysHats :=
  keepA_mLit _ _ (by decide) (by decide)

lemma keepA194 : keepA (mLit rdqP [rsq]) boysHats :=
  keepA_mLit _ _ (by decide) (by decide)

lemma keepA195 : keepA (mLit lsqP [ldq]) boysHats :=
  keepA_mLit _ _ (by decide) (by decide)

lemma keepA196 : keepA (mLit rsqP [rdq]) boysHats :=
  keepA_mLit _ _ (by decide) (by decide)

lemma keepA197 : keepA (mLit apP [rsq]) boysHats :=
  keepA_mLit _ _ (by decide) (by decide)

lemma keepA200 : keepA m200 boysHats := by
  have hm : m200 = mLit [rsq, hairsp, rsq] [rsq, hairsp, rdq] := funext (fun v => rfl)
  rw [hm]
  exact keepA_mLit _ _ (by decide) (by decide)

lemma m186_consumed (s rep rest : List Char) (h : m186 s = some (rep, rest)) :
    ∃ ws, (∀ c ∈ ws, pyWs c = true) ∧ s = (patRdqApos ++ ws) ++ rest := by
  unfold m186 at h
  by_cases hp : pfxB patRdqApos s = true
  · rw [if_pos hp] at h
    dsimp only at h
    by_cases hw : (s.drop 8).takeWhile pyWs = []
    · rw [if_pos hw] at h
      exact Option.noConfusion h
    · rw [if_neg hw] at h
      injection h with h'
      rw [Prod.mk.injEq] at h'
      obtain ⟨hrep, hrest⟩ := h'
      obtain ⟨z, hz⟩ := pfxB_split patRdqApos s hp
      subst hz
      have h8 : (patRdqApos ++ z).drop 8 = z := by
        rw [show (8 : Nat) = patRdqApos.length from rfl]
        exact List.drop_left _ _
      rw [h8] at hrest
      refine ⟨z.takeWhile pyWs, fun c hc => List.mem_takeWhile_imp hc, ?_⟩
      obtain ⟨t2, ht2⟩ := List.takeWhile_prefix (l := z) pyWs
      rw [← hrest]
      have hdz : (patRdqApos ++ z).drop (8 + (z.takeWhile pyWs).length)
          = z.drop (z.takeWhile pyWs).length := by
        rw [show (8 : Nat) = patRdqApos.length from rfl]
        exact List.drop_append _
      rw [hdz]
      have hzt : z.drop (z.takeWhile pyWs).length = t2 := by
        have hc2 := congrArg (fun l => List.drop (z.takeWhile pyWs).length l) ht2
        simp only at hc2
        rw [List.drop_left] at hc2
        exact hc2.symm
      rw [hzt, List.append_assoc]
      congr 1
      exact ht2.symm
  · rw [if_neg hp] at h
    exact Option.noConfusion h

lemma keepA186 : keepA m186 boysHats := by
  have h := keepA_of_avoid m186 't' ("he boys’ hats".toList) ?_
  · exact h
  · intro s rep rest hm
    obtain ⟨ws, hws, hs⟩ := m186_consumed s rep rest hm
    refine ⟨patRdqApos ++ ws, by simp [patRdqApos], hs, ?_⟩
    intro hmem
    rcases List.mem_append.mp hmem with h1 | h1
    · exact absurd h1 (by decide)
    · have := hws 't' h1
      exact absurd this (by decide)

lemma m188_consumed (s rep rest : List Char) (h : m188 s = some (rep, rest)) :
    ∃ p, punct188.contains p = true ∧ s = [p, rsq] ++ rest := by
  match s with
  | [] => simp [m188] at h
  | [p] => simp [m188] at h
  | p :: q :: r =>
    simp only [m188] at h
    split at h
    · rename_i hc
      simp only [Bool.and_eq_true, beq_iff_eq] at hc
      injection h with h'
      rw [Prod.mk.injEq] at h'
      rw [hc.2, h'.2]
      exact ⟨p, hc.1, rfl⟩
    · exact Option.noConfusion h

lemma keepA188 : keepA m188 boysHats := by
  have h := keepA_of_avoid m188 't' ("he boys’ hats".toList) ?_
  · exact h
  · intro s rep rest hm
    obtain ⟨p, hp, hs⟩ := m188_consumed s rep rest hm
    refine ⟨[p, rsq], by simp, hs, ?_⟩
    intro hmem
    rcases List.mem_cons.mp hmem with h1 | h1
    · rw [← h1] at hp
      exact absurd hp (by decide)
    · rcases List.mem_cons.mp h1 with h2 | h2
      · exact absurd h2 (by decide)
      · exact absurd h2 (List.not_mem_nil 't')

lemma m189_consumed (s rep rest : List Char) (h : m189 s = some (rep, rest)) :
    ∃ ws, (∀ c ∈ ws, pyWs c = true) ∧ s = (([emDash, rsq] ++ ws) ++ rest) := by
  match s with
  | [] => simp [m189] at h
  | [d] => simp [m189] at h
  | d :: q :: r =>
    simp only [m189] at h
    split at h
    · rename_i hc
      simp only [Bool.and_eq_true, beq_iff_eq] at hc
      by_cases hw : r.takeWhile pyWs = []
      · rw [if_pos hw] at h
        exact Option.noConfusion h
      · rw [if_neg hw] at h
        injection h with h'
        rw [Prod.mk.injEq] at h'
        obtain ⟨hrep, hrest⟩ := h'
        refine ⟨r.takeWhile pyWs, fun c hc => List.mem_takeWhile_imp hc, ?_⟩
        rw [hc.1, hc.2, ← hrest]
        obtain ⟨t2, ht2⟩ := List.takeWhile_prefix (l := r) pyWs
        have hzt : r.drop (r.takeWhile pyWs).length = t2 := by
          have hc2 := congrArg (fun l => List.drop (r.takeWhile pyWs).length l) ht2
          simp only at hc2
          rw [List.drop_left] at hc2
          exact hc2.symm
        rw [hzt]
        simp only [List.cons_append, List.append_assoc, List.nil_append]
        rw [ht2]
    · exact Option.noConfusion h

lemma keepA189 : keepA m189 boysHats := by
  have h := keepA_of_avoid m189 't' ("he boys’ hats".toList) ?_
  · exact h
  · intro s rep rest hm
    obtain ⟨ws, hws, hs⟩ := m189_consumed s rep rest hm
    refine ⟨[emDash, rsq] ++ ws, by simp, hs, ?_⟩
    intro hmem
    rcases List.mem_append.mp hmem with h1 | h1
    · exact absurd h1 (by decide)
    · have := hws 't' h1
      exact absurd this (by decide)

lemma m191_inv (s rep rest : List Char) (h : m191 s = some (rep, rest)) :
    ∃ a q b, (lowerAZ a && q == rsq && lowerAZ b) = true ∧ s = [a, q, b] ++ rest ∧
      rep = a :: apP ++ [b] := by
  match s with
  | [] => simp [m191] at h
  | [a] => simp [m191] at h
  | [a, q] => simp [m191] at h
  | a :: q :: b :: r =>
    simp only [m191] at h
    split at h
    · rename_i hc
      injection h with h'
      rw [Prod.mk.injEq] at h'
      refine ⟨a, q, b, hc, ?_, h'.1.symm⟩
      rw [h'.2]
      rfl
    · exact Option.noConfusion h

lemma keepA191 : keepA m191 boysHats := by
  intro u v rep rest hu hm
  obtain ⟨a, q, b, hc, hs, hrep⟩ := m191_inv _ _ _ hm
  have hul : 0 < u.length := List.length_pos.mpr hu
  rcases split3 u boysHats v [a, q, b] rest hs with
    ⟨hle, hR⟩ | ⟨j, hj0, hjW, hCj, hRj⟩ | ⟨t, hCt⟩
  · left
    refine ⟨u.drop 3, ?_, hR⟩
    rw [List.length_drop]
    omega
  · simp only [Bool.and_eq_true, beq_iff_eq] at hc
    have hlen3 : u.length + j = 3 := by
      have hLL := congrArg List.length hCj
      simp only [List.length_append, List.length_take, List.length_cons,
        List.length_nil] at hLL
      rw [show boysHats.length = 14 from rfl] at hLL
      omega
    have hj2 : j ≤ 2 := by omega
    interval_cases j
    · right; left
      rw [show List.take 1 boysHats = ['t'] from rfl] at hCj
      have h1 : ([a, q] : List Char) ++ [b] = u ++ ['t'] := hCj
      obtain ⟨hu2, hb⟩ := List.append_inj' h1 rfl
      have hb' : b = 't' := by injection hb
      refine ⟨1, a :: apP, by omega, by rw [show boysHats.length = 14 from rfl]; omega,
        ?_, hRj⟩
      rw [hrep, hb']
      rfl
    · exfalso
      rw [show List.take 2 boysHats = ['t', 'h'] from rfl] at hCj
      have h1 : ([a] : List Char) ++ [q, b] = u ++ ['t', 'h'] := hCj
      obtain ⟨hu2, hqb⟩ := List.append_inj' h1 rfl
      have hq : q = 't' := by injection hqb
      have hteq : ('t' : Char) = rsq := hq ▸ hc.1.2
      exact absurd hteq (by decide)
  · exfalso
    have hLL := congrArg List.length hCt
    simp only [List.length_append, List.length_cons, List.length_nil] at hLL
    rw [show boysHats.length = 14 from rfl] at hLL
    omega

lemma m192_inv (s rep rest : List Char) (h : m192 s = some (rep, rest)) :
    ∃ c run q b, pyWs c = true ∧ (∀ x ∈ run, pyWs x = true) ∧
      (q == rsq && lowerAZ b) = true ∧
      s = ((c :: run) ++ [q, b]) ++ rest ∧ rep = (c :: run) ++ apP ++ [b] := by
  match s with
  | [] => simp [m192] at h
  | c :: cs =>
    simp only [m192] at h
    split at h
    · rename_i hw
      split at h
      · rename_i q b r2 heq
        split at h
        · rename_i hc
          injection h with h'
          rw [Prod.mk.injEq] at h'
          obtain ⟨hrep, hrest⟩ := h'
          refine ⟨c, cs.takeWhile pyWs, q, b, hw, fun x hx => List.mem_takeWhile_imp hx,
            hc, ?_, hrep.symm⟩
          obtain ⟨t2, ht2⟩ := List.takeWhile_prefix (l := cs) pyWs
          have hzt : cs.drop (cs.takeWhile pyWs).length = t2 := by
            have hc2 := congrArg (fun l => List.drop (cs.takeWhile pyWs).length l) ht2
            simp only at hc2
            rw [List.drop_left] at hc2
            exact hc2.symm
          rw [hzt] at heq
          rw [← hrest]
          show c :: cs = ((c :: cs.takeWhile pyWs) ++ [q, b]) ++ r2
          have hcs : cs = cs.takeWhile pyWs ++ (q :: b :: r2) := by
            rw [← heq, ht2]
          conv_lhs => rw [hcs]
          simp
        · exact Option.noConfusion h
      · exact Option.noConfusion h
    · exact Option.noConfusion h

lemma midkill (c : Char) (run u : List Char) (q b wa wb : Char) (pre : List Char)
    (hq : q = rsq) (hwa : wa ≠ rsq)
    (h : (c :: run) ++ [q, b] = u ++ (pre ++ [wa, wb])) : False := by
  have h1 : (c :: run) ++ [q, b] = (u ++ pre) ++ [wa, wb] := by
    rw [h, List.append_assoc]
  obtain ⟨hpre, h2⟩ := List.append_inj' h1 rfl
  have hq2 : q = wa := by injection h2
  exact hwa (by rw [← hq2, hq])

lemma keepA192 : keepA m192 boysHats := by
  intro u v rep rest hu hm
  obtain ⟨c, run, q, b, hwc, hwr, hc, hs, hrep⟩ := m192_inv _ _ _ hm
  have hul : 0 < u.length := List.length_pos.mpr hu
  simp only [Bool.and_eq_true, beq_iff_eq] at hc
  rcases split3 u boysHats v ((c :: run) ++ [q, b]) rest hs with
    ⟨hle, hR⟩ | ⟨j, hj0, hjW, hCj, hRj⟩ | ⟨t, hCt⟩
  · left
    refine ⟨u.drop ((c :: run) ++ [q, b]).length, ?_, hR⟩
    rw [List.length_drop]
    simp only [List.length_append, List.length_cons, List.length_nil] at hle ⊢
    omega
  · rw [show boysHats.length = 14 from rfl] at hjW
    by_cases hj1 : j = 1
    · subst hj1
      right; left
      rw [show List.take 1 boysHats = ['t'] from rfl] at hCj
      have h1 : ((c :: run) ++ [q]) ++ [b] = u ++ ['t'] := by
        rw [← hCj]
        simp
      obtain ⟨hu2, hb⟩ := List.append_inj' h1 rfl
      have hb' : b = 't' := by injection hb
      refine ⟨1, (c :: run) ++ apP, by omega,
        by rw [show boysHats.length = 14 from rfl]; omega, ?_, hRj⟩
      rw [hrep, hb', show List.take 1 boysHats = ['t'] from rfl]
    · exfalso
      have hj2 : 2 ≤ j := by omega
      interval_cases j
      · exact midkill c run u q b 't' 'h' [] hc.1 (by decide) (by rw [hCj]; rfl)
      · exact midkill c run u q b 'h' 'e' ['t'] hc.1 (by decide) (by rw [hCj]; rfl)
      · exact midkill c run u q b 'e' ' ' ['t', 'h'] hc.1 (by decide) (by rw [hCj]; rfl)
      · exact midkill c run u q b ' ' 'b' ['t', 'h', 'e'] hc.1 (by decide) (by rw [hCj]; rfl)
      · exact midkill c run u q b 'b' 'o' ['t', 'h', 'e', ' '] hc.1 (by decide)
          (by rw [hCj]; rfl)
      · exact midkill c run u q b 'o' 'y' ['t', 'h', 'e', ' ', 'b'] hc.1 (by decide)
          (by rw [hCj]; rfl)
      · exact midkill c run u q b 'y' 's' ['t', 'h', 'e', ' ', 'b', 'o'] hc.1 (by decide)
          (by rw [hCj]; rfl)
      · exact midkill c run u q b 's' rsq ['t', 'h', 'e', ' ', 'b', 'o', 'y'] hc.1
          (by decide) (by rw [hCj]; rfl)
      · -- j = 10 : the character before the matched `’` would have to be
        -- whitespace, but it is the final `s` of `boys`
        rcases List.eq_nil_or_concat run with hrun | ⟨run0, rl, hrun⟩
        · subst hrun
          have hLL := congrArg List.length hCj
          simp only [List.length_append, List.length_cons, List.length_nil,
            List.length_take] at hLL
          rw [show boysHats.length = 14 from rfl] at hLL
          omega
        · subst hrun
          have h2 : (c :: run0) ++ [rl, q, b] =
              (u ++ ['t', 'h', 'e', ' ', 'b', 'o', 'y']) ++ ['s', rsq, ' '] := by
            have h3 : (c :: (run0.concat rl)) ++ [q, b] = (c :: run0) ++ [rl, q, b] := by
              simp [List.concat_eq_append]
            rw [← h3, hCj, List.append_assoc]
            rfl
          obtain ⟨hpre2, hlast3⟩ := List.append_inj' h2 rfl
          have hrl : rl = 's' := by injection hlast3
          have hmem : rl ∈ run0.concat rl := by
            rw [List.concat_eq_append]
            exact List.mem_append_right _ (List.mem_cons_self _ _)
          have hbad := hwr rl hmem
          rw [hrl] at hbad
          exact absurd hbad (by decide)
      · exact midkill c run u q b ' ' 'h'
          ['t', 'h', 'e', ' ', 'b', 'o', 'y', 's', rsq] hc.1 (by decide)
          (by rw [hCj]; rfl)
      · exact midkill c run u q b 'h' 'a'
          ['t', 'h', 'e', ' ', 'b', 'o', 'y', 's', rsq, ' '] hc.1 (by decide)
          (by rw [hCj]; rfl)
      · exact midkill c run u q b 'a' 't'
          ['t', 'h', 'e', ' ', 'b', 'o', 'y', 's', rsq, ' ', 'h'] hc.1 (by decide)
          (by rw [hCj]; rfl)
  · exfalso
    have ht' : ('t' : Char) ∈ (c :: run) ++ [q, b] := by
      rw [hCt]
      apply List.mem_append_right
      apply List.mem_append_left
      decide
    have hh' : ('h' : Char) ∈ (c :: run) ++ [q, b] := by
      rw [hCt]
      apply List.mem_append_right
      apply List.mem_append_left
      decide
    have hmem_case : ∀ x : Char, x ∈ (c :: run) ++ [q, b] →
        pyWs x = true ∨ x = q ∨ x = b := by
      intro x hx
      rcases List.mem_append.mp hx with h1 | h1
      · rcases List.mem_cons.mp h1 with h2 | h2
        · exact Or.inl (h2 ▸ hwc)
        · exact Or.inl (hwr x h2)
      · rcases List.mem_cons.mp h1 with h2 | h2
        · exact Or.inr (Or.inl h2)
        · rcases List.mem_cons.mp h2 with h3 | h3
          · exact Or.inr (Or.inr h3)
          · exact absurd h3 (List.not_mem_nil x)
    rcases hmem_case 't' ht' with h1 | h1 | h1
    · exact absurd h1 (by decide)
    · have hq' : q = 't' := h1.symm
      rw [hq'] at hc
      exact absurd hc.1 (by decide)
    · rcases hmem_case 'h' hh' with h2 | h2 | h2
      · exact absurd h2 (by decide)
      · have hq' : q = 'h' := h2.symm
        rw [hq'] at hc
        exact absurd hc.1 (by decide)
      · have : ('t' : Char) = 'h' := by rw [h1, h2]
        exact absurd this (by decide)

lemma find201_facts : ∀ (cs g : List Char) (c2 : Char) (rest : List Char),
    find201 cs = some (g, c2, rest) →
      class201 c2 = true ∧ ∃ g0 x, g = g0 ++ [x] ∧ x ≠ 's' := by
  intro cs
  induction cs with
  | nil => intro g c2 rest h; simp [find201] at h
  | cons c1 tail ih =>
    intro g c2 rest h
    simp only [find201] at h
    split at h
    · exact absurd h (by simp)
    · split at h
      · rename_i x q c2' rest'
        split at h
        · rename_i hq
          injection h with h'
          rw [Prod.mk.injEq] at h'
          obtain ⟨hg, h2⟩ := h'
          rw [Prod.mk.injEq] at h2
          obtain ⟨hc2, hrest⟩ := h2
          simp only [Bool.and_eq_true, beq_iff_eq] at hq
          constructor
          · rw [← hc2]
            exact hq.2
          · refine ⟨[c1], x, hg.symm, ?_⟩
            have hnx := hq.1.1
            intro hxe
            rw [hxe] at hnx
            simp at hnx
        · split at h
          · rename_i g' cc rest2 hf
            injection h with h'
            rw [Prod.mk.injEq] at h'
            obtain ⟨hg, h2⟩ := h'
            rw [Prod.mk.injEq] at h2
            obtain ⟨hc2, hrest⟩ := h2
            have hT := ih g' cc rest2 hf
            constructor
            · rw [← hc2]
              exact hT.1
            · obtain ⟨g0, x, hgx, hx⟩ := hT.2
              refine ⟨c1 :: g0, x, ?_, hx⟩
              rw [← hg, hgx]
              rfl
          · exact absurd h (by simp)
      · split at h
        · rename_i g' cc rest2 hf
          injection h with h'
          rw [Prod.mk.injEq] at h'
          obtain ⟨hg, h2⟩ := h'
          rw [Prod.mk.injEq] at h2
          obtain ⟨hc2, hrest⟩ := h2
          have hT := ih g' cc rest2 hf
          constructor
          · rw [← hc2]
            exact hT.1
          · obtain ⟨g0, x, hgx, hx⟩ := hT.2
            refine ⟨c1 :: g0, x, ?_, hx⟩
            rw [← hg, hgx]
            rfl
        · exact absurd h (by simp)

lemma find202_facts : ∀ (cs g : List Char) (c2 : Char) (rest : List Char),
    find202 cs = some (g, c2, rest) → class202 c2 = true := by
  intro cs
  induction cs with
  | nil => intro g c2 rest h; simp [find202] at h
  | cons c1 tail ih =>
    intro g c2 rest h
    simp only [find202] at h
    split at h
    · exact absurd h (by simp)
    · split at h
      · split at h
        · rename_i hq
          injection h with h'
          rw [Prod.mk.injEq] at h'
          obtain ⟨hg, h2⟩ := h'
          rw [Prod.mk.injEq] at h2
          obtain ⟨hc2, hrest⟩ := h2
          simp only [Bool.and_eq_true, beq_iff_eq] at hq
          rw [← hc2]
          exact hq.2
        · split at h
          · rename_i g' cc rest2 hf
            injection h with h'
            rw [Prod.mk.injEq] at h'
            obtain ⟨hg, h2⟩ := h'
            rw [Prod.mk.injEq] at h2
            obtain ⟨hc2, hrest⟩ := h2
            rw [← hc2]
            exact ih g' cc rest2 hf
          · exact absurd h (by simp)
      · split at h
        · rename_i g' cc rest2 hf
          injection h with h'
          rw [Prod.mk.injEq] at h'
          obtain ⟨hg, h2⟩ := h'
          rw [Prod.mk.injEq] at h2
          obtain ⟨hc2, hrest⟩ := h2
          rw [← hc2]
          exact ih g' cc rest2 hf
        · exact absurd h (by simp)

lemma m201_inv2 (s rep rest : List Char) (h : m201 s = some (rep, rest)) :
    ∃ g c2, s = ldq :: (g ++ rsq :: c2 :: rest) ∧ rep = ldq :: g ++ rdq :: [c2] ∧
      class201 c2 = true ∧ ∃ g0 x, g = g0 ++ [x] ∧ x ≠ 's' := by
  match s with
  | [] => exact absurd h (by simp [m201])
  | q :: cs =>
    simp only [m201] at h
    split at h
    · split at h
      · rename_i hq hsc g c2 r hf
        injection h with h'
        rw [Prod.mk.injEq] at h'
        obtain ⟨hrep, hrest⟩ := h'
        have hT := find201_shape cs g c2 r hf
        have hF := find201_facts cs g c2 r hf
        simp only [beq_iff_eq] at hq
        refine ⟨g, c2, ?_, hrep.symm, hF.1, hF.2⟩
        rw [hT, hq, hrest]
      · exact absurd h (by simp)
    · exact absurd h (by simp)

lemma m202_inv2 (s rep rest : List Char) (h : m202 s = some (rep, rest)) :
    ∃ g c2, s = ldq :: (g ++ rsq :: c2 :: rest) ∧ rep = ldq :: g ++ rdq :: [c2] ∧
      class202 c2 = true := by
  match s with
  | [] => exact absurd h (by simp [m202])
  | q :: cs =>
    simp only [m202] at h
    split at h
    · split at h
      · rename_i hq hsc g c2 r hf
        injection h with h'
        rw [Prod.mk.injEq] at h'
        obtain ⟨hrep, hrest⟩ := h'
        have hT := find202_shape cs g c2 r hf
        have hF := find202_facts cs g c2 r hf
        simp only [beq_iff_eq] at hq
        refine ⟨g, c2, ?_, hrep.symm, hF⟩
        rw [hT, hq, hrest]
      · exact absurd h (by simp)
    · exact absurd h (by simp)

lemma keepA201 : keepA m201 boysHats := by
  intro u v rep rest hu hm
  obtain ⟨g, c2, hs1, hrep, hcl, g0, x, hgx, hx⟩ := m201_inv2 _ _ _ hm
  have hul : 0 < u.length := List.length_pos.mpr hu
  have hs2 : u ++ (boysHats ++ v) = ((ldq :: g) ++ [rsq, c2]) ++ rest := by
    rw [hs1]
    simp
  rcases split3 u boysHats v ((ldq :: g) ++ [rsq, c2]) rest hs2 with
    ⟨hle, hR⟩ | ⟨j, hj0, hjW, hCj, hRj⟩ | ⟨t, hCt⟩
  · left
    refine ⟨u.drop (((ldq :: g) ++ [rsq, c2]).length), ?_, hR⟩
    rw [List.length_drop]
    simp only [List.length_append, List.length_cons, List.length_nil] at hle ⊢
    omega
  · exfalso
    rw [show boysHats.length = 14 from rfl] at hjW
    by_cases hj1 : j = 1
    · subst hj1
      rw [show List.take 1 boysHats = ['t'] from rfl] at hCj
      have h1 : ((ldq :: g) ++ [rsq]) ++ [c2] = u ++ ['t'] := by
        rw [← hCj]
        simp
      obtain ⟨hpre, hc2t⟩ := List.append_inj' h1 rfl
      have hc2' : c2 = 't' := by injection hc2t
      rw [hc2'] at hcl
      exact absurd hcl (by decide)
    · have hj2 : 2 ≤ j := by omega
      interval_cases j
      · exact midkill ldq g u rsq c2 't' 'h' [] rfl (by decide) (by rw [hCj]; rfl)
      · exact midkill ldq g u rsq c2 'h' 'e' ['t'] rfl (by decide) (by rw [hCj]; rfl)
      · exact midkill ldq g u rsq c2 'e' ' ' ['t', 'h'] rfl (by decide) (by rw [hCj]; rfl)
      · exact midkill ldq g u rsq c2 ' ' 'b' ['t', 'h', 'e'] rfl (by decide)
          (by rw [hCj]; rfl)
      · exact midkill ldq g u rsq c2 'b' 'o' ['t', 'h', 'e', ' '] rfl (by decide)
          (by rw [hCj]; rfl)
      · exact midkill ldq g u rsq c2 'o' 'y' ['t', 'h', 'e', ' ', 'b'] rfl (by decide)
          (by rw [hCj]; rfl)
      · exact midkill ldq g u rsq c2 'y' 's' ['t', 'h', 'e', ' ', 'b', 'o'] rfl (by decide)
          (by rw [hCj]; rfl)
      · exact midkill ldq g u rsq c2 's' rsq ['t', 'h', 'e', ' ', 'b', 'o', 'y'] rfl
          (by decide) (by rw [hCj]; rfl)
      · -- j = 10 : the group character before the matched `’` would be the
        -- `s` of `boys`, excluded by the `[^s]` at the end of the group
        have h2 : (ldq :: g0) ++ [x, rsq, c2] =
            (u ++ ['t', 'h', 'e', ' ', 'b', 'o', 'y']) ++ ['s', rsq, ' '] := by
          have h3 : (ldq :: g) ++ [rsq, c2] = (ldq :: g0) ++ [x, rsq, c2] := by
            rw [hgx]
            simp
          rw [← h3, hCj, List.append_assoc]
          rfl
        obtain ⟨hpre2, hlast3⟩ := List.append_inj' h2 rfl
        have hxs : x = 's' := by injection hlast3
        exact hx hxs
      · exact midkill ldq g u rsq c2 ' ' 'h'
          ['t', 'h', 'e', ' ', 'b', 'o', 'y', 's', rsq] rfl (by decide)
          (by rw [hCj]; rfl)
      · exact midkill ldq g u rsq c2 'h' 'a'
          ['t', 'h', 'e', ' ', 'b', 'o', 'y', 's', rsq, ' '] rfl (by decide)
          (by rw [hCj]; rfl)
      · exact midkill ldq g u rsq c2 'a' 't'
          ['t', 'h', 'e', ' ', 'b', 'o', 'y', 's', rsq, ' ', 'h'] rfl (by decide)
          (by rw [hCj]; rfl)
  · rcases List.eq_nil_or_concat t with hT | ⟨t1, ta, hT⟩
    · exfalso
      subst hT
      exact midkill ldq g u rsq c2 't' 's'
        ['t', 'h', 'e', ' ', 'b', 'o', 'y', 's', rsq, ' ', 'h', 'a'] rfl (by decide)
        (by rw [hCt]; rfl)
    · subst hT
      rcases List.eq_nil_or_concat t1 with hT1 | ⟨t2, tb, hT1⟩
      · exfalso
        subst hT1
        exact midkill ldq g u rsq c2 's' ta
          ['t', 'h', 'e', ' ', 'b', 'o', 'y', 's', rsq, ' ', 'h', 'a', 't'] rfl
          (by decide) (by rw [hCt]; rfl)
      · subst hT1
        right; right
        obtain ⟨u0, u', hu'⟩ : ∃ u0 u', u = u0 :: u' := by
          cases u with
          | nil => exact absurd rfl hu
          | cons u0 u' => exact ⟨u0, u', rfl⟩
        subst hu'
        have h2 : (ldq :: g) ++ [rsq, c2] =
            (u0 :: ((u' ++ boysHats) ++ t2)) ++ [tb, ta] := by
          rw [hCt]
          simp [List.concat_eq_append]
        obtain ⟨hpre2, _⟩ := List.append_inj' h2 rfl
        have hgeq : g = (u' ++ boysHats) ++ t2 := by
          injection hpre2 with e1 e2
        have hocc : occursB boysHats g = true := by
          rw [hgeq]
          exact occursB_of_parts boysHats u' t2
        rw [hrep]
        show (pfxB boysHats (ldq :: (g ++ rdq :: [c2])) ||
          occursB boysHats (g ++ rdq :: [c2])) = true
        rw [Bool.or_eq_true]
        exact Or.inr (occursB_append_l boysHats g _ hocc)

lemma keepA202 : keepA m202 boysHats := by
  intro u v rep rest hu hm
  obtain ⟨g, c2, hs1, hrep, hcl⟩ := m202_inv2 _ _ _ hm
  have hul : 0 < u.length := List.length_pos.mpr hu
  have hs2 : u ++ (boysHats ++ v) = ((ldq :: g) ++ [rsq, c2]) ++ rest := by
    rw [hs1]
    simp
  rcases split3 u boysHats v ((ldq :: g) ++ [rsq, c2]) rest hs2 with
    ⟨hle, hR⟩ | ⟨j, hj0, hjW, hCj, hRj⟩ | ⟨t, hCt⟩
  · left
    refine ⟨u.drop (((ldq :: g) ++ [rsq, c2]).length), ?_, hR⟩
    rw [List.length_drop]
    simp only [List.length_append, List.length_cons, List.length_nil] at hle ⊢
    omega
  · exfalso
    rw [show boysHats.length = 14 from rfl] at hjW
    by_cases hj1 : j = 1
    · subst hj1
      rw [show List.take 1 boysHats = ['t'] from rfl] at hCj
      have h1 : ((ldq :: g) ++ [rsq]) ++ [c2] = u ++ ['t'] := by
        rw [← hCj]
        simp
      obtain ⟨hpre, hc2t⟩ := List.append_inj' h1 rfl
      have hc2' : c2 = 't' := by injection hc2t
      rw [hc2'] at hcl
      exact absurd hcl (by decide)
    · have hj2 : 2 ≤ j := by omega
      interval_cases j
      · exact midkill ldq g u rsq c2 't' 'h' [] rfl (by decide) (by rw [hCj]; rfl)
      · exact midkill ldq g u rsq c2 'h' 'e' ['t'] rfl (by decide) (by rw [hCj]; rfl)
      · exact midkill ldq g u rsq c2 'e' ' ' ['t', 'h'] rfl (by decide) (by rw [hCj]; rfl)
      · exact midkill ldq g u rsq c2 ' ' 'b' ['t', 'h', 'e'] rfl (by decide)
          (by rw [hCj]; rfl)
      · exact midkill ldq g u rsq c2 'b' 'o' ['t', 'h', 'e', ' '] rfl (by decide)
          (by rw [hCj]; rfl)
      · exact midkill ldq g u rsq c2 'o' 'y' ['t', 'h', 'e', ' ', 'b'] rfl (by decide)
          (by rw [hCj]; rfl)
      · exact midkill ldq g u rsq c2 'y' 's' ['t', 'h', 'e', ' ', 'b', 'o'] rfl (by decide)
          (by rw [hCj]; rfl)
      · exact midkill ldq g u rsq c2 's' rsq ['t', 'h', 'e', ' ', 'b', 'o', 'y'] rfl
          (by decide) (by rw [hCj]; rfl)
      · -- j = 10 : the character after the matched `’` would be the space of
        -- `boys’ hats`, which is not in the class `[!\?:;\)]`
        have h1 : ((ldq :: g) ++ [rsq]) ++ [c2] =
            (u ++ ['t', 'h', 'e', ' ', 'b', 'o', 'y', 's', rsq]) ++ [' '] := by
          have e1 : ((ldq :: g) ++ [rsq]) ++ [c2] = (ldq :: g) ++ [rsq, c2] := by simp
          have e2 : (u ++ ['t', 'h', 'e', ' ', 'b', 'o', 'y', 's', rsq]) ++ [' ']
              = u ++ List.take 10 boysHats := by
            rw [List.append_assoc]
            rfl
          rw [e1, e2, hCj]
        obtain ⟨hpre, hc2t⟩ := List.append_inj' h1 rfl
        have hc2' : c2 = ' ' := by injection hc2t
        rw [hc2'] at hcl
        exact absurd hcl (by decide)
      · exact midkill ldq g u rsq c2 ' ' 'h'
          ['t', 'h', 'e', ' ', 'b', 'o', 'y', 's', rsq] rfl (by decide)
          (by rw [hCj]; rfl)
      · exact midkill ldq g u rsq c2 'h' 'a'
          ['t', 'h', 'e', ' ', 'b', 'o', 'y', 's', rsq, ' '] rfl (by decide)
          (by rw [hCj]; rfl)
      · exact midkill ldq g u rsq c2 'a' 't'
          ['t', 'h', 'e', ' ', 'b', 'o', 'y', 's', rsq, ' ', 'h'] rfl (by decide)
          (by rw [hCj]; rfl)
  · rcases List.eq_nil_or_concat t with hT | ⟨t1, ta, hT⟩
    · exfalso
      subst hT
      exact midkill ldq g u rsq c2 't' 's'
        ['t', 'h', 'e', ' ', 'b', 'o', 'y', 's', rsq, ' ', 'h', 'a'] rfl (by decide)
        (by rw [hCt]; rfl)
    · subst hT
      rcases List.eq_nil_or_concat t1 with hT1 | ⟨t2, tb, hT1⟩
      · exfalso
        subst hT1
        exact midkill ldq g u rsq c2 's' ta
          ['t', 'h', 'e', ' ', 'b', 'o', 'y', 's', rsq, ' ', 'h', 'a', 't'] rfl
          (by decide) (by rw [hCt]; rfl)
      · subst hT1
        right; right
        obtain ⟨u0, u', hu'⟩ : ∃ u0 u', u = u0 :: u' := by
          cases u with
          | nil => exact absurd rfl hu
          | cons u0 u' => exact ⟨u0, u', rfl⟩
        subst hu'
        have h2 : (ldq :: g) ++ [rsq, c2] =
            (u0 :: ((u' ++ boysHats) ++ t2)) ++ [tb, ta] := by
          rw [hCt]
          simp [List.concat_eq_append]
        obtain ⟨hpre2, _⟩ := List.append_inj' h2 rfl
        have hgeq : g = (u' ++ boysHats) ++ t2 := by
          injection hpre2 with e1 e2
        have hocc : occursB boysHats g = true := by
          rw [hgeq]
          exact occursB_of_parts boysHats u' t2
        rw [hrep]
        show (pfxB boysHats (ldq :: (g ++ rdq :: [c2])) ||
          occursB boysHats (g ++ rdq :: [c2])) = true
        rw [Bool.or_eq_true]
        exact Or.inr (occursB_append_l boysHats g _ hocc)

/-- **C6.** Possessive preservation: on any input containing the substring
`the boys’ hats`, `convert_british_to_american` keeps that substring intact —
in particular the apostrophe after `boys` remains a literal apostrophe
(U+2019) and is not turned into a closing double quotation mark.  Every pass
of the pipeline either matches entirely outside an occurrence of the
substring, or (for the contraction passes of lines 191–192) re-emits the
overlapped character unchanged; the corrective passes of lines 201–202 are
blocked at the possessive apostrophe by the `[^s]` group constraint
(line 201) and by the following space, which is not in `[!\?:;\)]`
(line 202). -/
theorem c6_possessive_preserved (s : List Char)
    (h : occursB boysHats s = true) :
    occursB boysHats (convert_british_to_american s) = true := by
  have hW : 1 < boysHats.length := by decide
  unfold convert_british_to_american
  dsimp only
  exact keepW_of m202 boysHats keepB202 keepA202 hW _
    (keepW_of m201 boysHats keepB201 keepA201 hW _
    (keepW_of m200 boysHats keepB200 keepA200 hW _
    (keepW_of _ boysHats keepB197 keepA197 hW _
    (keepW_of _ boysHats keepB196 keepA196 hW _
    (keepW_of _ boysHats keepB195 keepA195 hW _
    (keepW_of _ boysHats keepB194 keepA194 hW _
    (keepW_of _ boysHats keepB193 keepA193 hW _
    (keepW_of m192 boysHats keepB192 keepA192 hW _
    (keepW_of m191 boysHats keepB191 keepA191 hW _
    (keepW_of m190 boysHats keepB190 keepA190 hW _
    (keepW_of m189 boysHats keepB189 keepA189 hW _
    (keepW_of m188 boysHats keepB188 keepA188 hW _
    (keepW_of m187 boysHats keepB187 keepA187 hW _
    (keepW_of m186 boysHats keepB186 keepA186 hW _
    (keepW_of _ boysHats keepB185 keepA185 hW _
    (keepW_of _ boysHats keepB184 keepA184 hW _
    (keepW_of _ boysHats keepB183 keepA183 hW _ h)))))))))))))))))

/-- Witness for C6 at a concrete input containing `the boys’ hats`. -/
theorem c6_possessive_preserved_witness :
    occursB boysHats ("see the boys’ hats!".toList) = true ∧
      occursB boysHats (convert_british_to_american ("see the boys’ hats!".toList)) = true :=
  ⟨by decide, c6_possessive_preserved _ (by decide)⟩
